import Mathlib

/-!
Shallow embedding of the predictfun orders manager: the ladder maintenance
state machine of orders_manager.ts together with the grouped batch
cancellation of the gateway module.

Conventions of the embedding:
* Prices are kept in ticks of 0.001: the natural number p stands for the
  price p / 1000.  The source quantizes every price with toFixed(3), so the
  representation is exact and tick alignment is built in; the price bound
  0 < price < 1 of the spec becomes 0 < p < 1000.
* Bid values (price times quantity, in USD) are integers; the source only
  sums them and compares the sums against the integral threshold 500.
* Maker and taker amounts are the wei integers of the source, so the
  price derivation maker/taker is exact rational arithmetic rounded to the
  nearest tick, as toFixed(3) does for the positive values that occur.
* Order hashes are opaque strings used only for equality, as in the source.
* Gateway calls are modelled by explicit success parameters; the happy path
  instantiates every one of them with true.
-/

namespace Predictfun

/-- MarketBid of orders_manager.ts: one bid of the order book. -/
structure MarketBid where
  price : ℕ
  value : ℤ
deriving Repr, DecidableEq

/-- TrackedOrder of orders_manager.ts. -/
structure TrackedOrder where
  price : ℕ
  orderHash : String
deriving Repr, DecidableEq

/-- TrackedMarket of orders_manager.ts. -/
structure TrackedMarket where
  id : ℕ
  title : String
  orders : List TrackedOrder
  cancelCount : ℕ
  cooldownUntil : ℕ
deriving Repr, DecidableEq

/-- VALUE_THRESHOLD and MIN_DEPTH_CHECK_USD are both 500 USD in the source. -/
def VALUE_THRESHOLD : ℤ := 500

/-- Ordering used by every orders.sort((a, b) => b.price - a.price) call. -/
def ordDesc (a b : TrackedOrder) : Prop := b.price ≤ a.price

instance : DecidableRel ordDesc := fun a b => inferInstanceAs (Decidable (b.price ≤ a.price))

instance : IsTotal TrackedOrder ordDesc := ⟨fun a b => le_total b.price a.price⟩

instance : IsTrans TrackedOrder ordDesc := ⟨fun _ _ _ h1 h2 => le_trans h2 h1⟩

/-- JavaScript sort is a stable sort, and a stable sort is uniquely determined
by its comparator, so insertion sort models orders.sort exactly. -/
def sortOrdersDesc (l : List TrackedOrder) : List TrackedOrder := List.insertionSort ordDesc l

/-- One entry of the gateway listing of open orders, as consumed by the
sync block of monitorLoop: a market id, the order hash, the maker and taker
wei amounts and the side (0 = BUY). -/
structure ApiOrder where
  marketId : ℕ
  hash : String
  makerAmount : ℕ
  takerAmount : ℕ
  side : ℕ
deriving Repr, DecidableEq

/-- Round num/den to the nearest thousandth, half up: the value of
parseFloat((num / den).toFixed(3)) in tick units, for positive integers. -/
def roundMilli (num den : ℕ) : ℕ := (2000 * num + den) / (2 * den)

/-- Price derivation of the sync block: buy orders price maker/taker, sell
orders taker/maker; a missing amount leaves the price 0. -/
def derivePrice (o : ApiOrder) : ℕ :=
  if o.makerAmount ≠ 0 ∧ o.takerAmount ≠ 0 then
    if o.side = 0 then roundMilli o.makerAmount o.takerAmount
    else roundMilli o.takerAmount o.makerAmount
  else 0

/-- Grouping of the gateway listing by market id (apiOrdersByMarket). -/
def ordersForMarket (api : List ApiOrder) (mid : ℕ) : List ApiOrder :=
  api.filter (fun o => o.marketId == mid)

/-- The orders pushed by step 1 of the sync block: every remote order whose
hash is not already tracked, with its derived price. -/
def newTrackedOrders (t : TrackedMarket) (marketApi : List ApiOrder) : List TrackedOrder :=
  (marketApi.filter (fun a => !((t.orders.map TrackedOrder.orderHash).contains a.hash))).map
    (fun a => { price := derivePrice a, orderHash := a.hash })

/-- The sync block of monitorLoop for one tracked market: push untracked
remote orders, drop tracked orders absent from the remote set, re-sort
descending by price.  cancelCount and cooldownUntil are untouched. -/
def syncMarket (t : TrackedMarket) (api : List ApiOrder) : TrackedMarket :=
  let marketApi := ordersForMarket api t.id
  let apiHashes := marketApi.map ApiOrder.hash
  let merged := (t.orders ++ newTrackedOrders t marketApi).filter
      (fun o => apiHashes.contains o.orderHash)
  { t with orders := sortOrdersDesc merged }

/-- incrementCancelCount of orders_manager.ts: add the batch size to the
cancellation counter and enter the 30 minute cooldown the first time the
counter reaches 10 while no cooldown is set. -/
def incrementCancelCount (t : TrackedMarket) (count : ℕ) (now : ℕ) : TrackedMarket :=
  let cc := t.cancelCount + count
  if 10 ≤ cc ∧ t.cooldownUntil = 0 then
    { t with cancelCount := cc, cooldownUntil := now + 30 * 60 * 1000 }
  else
    { t with cancelCount := cc }

/-- cancelTopOrders of orders_manager.ts: attempt to batch cancel the first
count tracked orders; ok is the overall success reported by the gateway.  On
success the attempted orders are dropped from tracking and counted, on
failure nothing changes and 0 is returned. -/
def cancelTopOrders (t : TrackedMarket) (count : ℕ) (ok : Bool) (now : ℕ) :
    TrackedMarket × ℕ :=
  let toCancel := t.orders.take count
  if toCancel.isEmpty then (t, 0)
  else if ok then
    let hs := (toCancel.map TrackedOrder.orderHash).dedup
    (incrementCancelCount
      { t with orders := t.orders.filter (fun o => !(hs.contains o.orderHash)) } hs.length now,
     hs.length)
  else (t, 0)

/-- cancelBottomOrders of orders_manager.ts: same as cancelTopOrders but the
batch is taken from the low end of the descending list. -/
def cancelBottomOrders (t : TrackedMarket) (count : ℕ) (ok : Bool) (now : ℕ) :
    TrackedMarket × ℕ :=
  let toCancel := t.orders.reverse.take count
  if toCancel.isEmpty then (t, 0)
  else if ok then
    let hs := (toCancel.map TrackedOrder.orderHash).dedup
    (incrementCancelCount
      { t with orders := t.orders.filter (fun o => !(hs.contains o.orderHash)) } hs.length now,
     hs.length)
  else (t, 0)

/-- Fresh order hash returned by the n-th successful openOrder call of a
pass; the source receives it from the gateway. -/
def freshHash (n : ℕ) : String := "H" ++ toString n

/-- The placement loop of openBottomOrders: place count orders at
start, start minus one tick, ..., pushing and re-sorting after each
placement, stopping as soon as a price would be at or below 0.  Returns the
market, the number placed and the next fresh-hash counter. -/
def placeBottom (t : TrackedMarket) (start : ℕ) (count : ℕ) (i : ℕ) (nh : ℕ) :
    TrackedMarket × ℕ × ℕ :=
  match count with
  | 0 => (t, 0, nh)
  | c + 1 =>
    let newPrice := start - i
    if newPrice = 0 then (t, 0, nh)
    else
      let l1 := sortOrdersDesc (t.orders ++ [{ price := newPrice, orderHash := freshHash nh }])
      let t1 := { t with orders := l1 }
      let r := placeBottom t1 start c (i + 1) (nh + 1)
      (r.1, r.2.1 + 1, r.2.2)

/-- The scan of processMarket and openBottomOrders over at most the first 6
bids, accumulating value until the running sum first exceeds the 500 USD
depth threshold; returns the index and the bid price there. -/
def findStartGo : List MarketBid → ℤ → ℕ → Option (ℕ × ℕ)
  | [], _, _ => none
  | b :: rest, acc, i =>
    if VALUE_THRESHOLD < acc + b.value then some (i, b.price)
    else findStartGo rest (acc + b.value) (i + 1)

/-- Depth-threshold scan over at most the first 6 bids. -/
def findStart (bids : List MarketBid) : Option (ℕ × ℕ) := findStartGo (bids.take 6) 0 0

/-- openBottomOrders of orders_manager.ts: anchor one tick below the lowest
tracked price, or, when no orders are tracked, one tick below the bid at
which the book first accumulates more than 500 USD; then run the placement
loop. -/
def openBottomOrders (t : TrackedMarket) (count : ℕ) (bids : List MarketBid) (nh : ℕ) :
    TrackedMarket × ℕ × ℕ :=
  match t.orders.getLast? with
  | some lowest => placeBottom t (lowest.price - 1) count 0 nh
  | none =>
    match findStart bids with
    | none => (t, 0, nh)
    | some kp => placeBottom t (kp.2 - 1) count 0 nh

/-- openTopOrders of orders_manager.ts: place count orders one tick above
the current highest price, re-reading the highest after each placement, and
stop as soon as the list is empty or a price would reach 1. -/
def placeTop (t : TrackedMarket) (count : ℕ) (nh : ℕ) : TrackedMarket × ℕ × ℕ :=
  match count with
  | 0 => (t, 0, nh)
  | c + 1 =>
    match t.orders with
    | [] => (t, 0, nh)
    | top :: _ =>
      let newPrice := top.price + 1
      if 1000 ≤ newPrice then (t, 0, nh)
      else
        let l1 := sortOrdersDesc ({ price := newPrice, orderHash := freshHash nh } :: t.orders)
        let t1 := { t with orders := l1 }
        let r := placeTop t1 c (nh + 1)
        (r.1, r.2.1 + 1, r.2.2)

/-- Cumulative value of the bids strictly above price p, scanned from the
best bid and stopping at the first bid at or below p, exactly as the break
loops of checkAndRebalance do. -/
def depthAbove (bids : List MarketBid) (p : ℕ) : ℤ :=
  ((bids.takeWhile (fun b => p < b.price)).map MarketBid.value).sum

/-- Length of the leading run of tracked orders priced at or above the best
bid (the ordersToMoveDown loop of checkAndRebalance). -/
def countAtOrAbove (orders : List TrackedOrder) (best : ℕ) : ℕ :=
  (orders.takeWhile (fun o => best ≤ o.price)).length

/-- The up-shift scan of checkAndRebalance, started at step i with b steps
remaining: a step is valid while the depth above top + i ticks stays at or
above 500; the first failing step halts the scan. -/
def validMovesFrom (bids : List MarketBid) (top : ℕ) : ℕ → ℕ → ℕ
  | _, 0 => 0
  | i, b + 1 =>
    if VALUE_THRESHOLD ≤ depthAbove bids (top + i) then 1 + validMovesFrom bids top (i + 1) b
    else 0

/-- The up-shift scan of checkAndRebalance: valid steps counted from step 1
up to at most bound. -/
def validMoves (bids : List MarketBid) (top : ℕ) (bound : ℕ) : ℕ :=
  validMovesFrom bids top 1 bound

/-- Result of one rebalance pass: the market, how many orders the pass
cancelled, how many it placed, and the next fresh-hash counter. -/
structure RebalanceResult where
  market : TrackedMarket
  cancelled : ℕ
  placed : ℕ
  nextHash : ℕ
deriving Repr, DecidableEq

/-- The directional part of checkAndRebalance (after trim and refill): shift
the ladder down when the best bid is at or below the top or the depth above
the top is under 500, else shift up when the best bid is more than one tick
above the top and the incremental depth scan validates at least one step. -/
def directionalShift (t : TrackedMarket) (bids : List MarketBid) (now : ℕ) (nh : ℕ) :
    RebalanceResult :=
  match bids, t.orders with
  | best :: _, top :: _ =>
    let cum := depthAbove bids top.price
    if best.price ≤ top.price ∨ cum < VALUE_THRESHOLD then
      let k := min (max 1 (countAtOrAbove t.orders best.price)) t.orders.length
      let c := cancelTopOrders t k true now
      if 0 < c.2 then
        let r := openBottomOrders c.1 c.2 bids nh
        ⟨r.1, c.2, r.2.1, r.2.2⟩
      else ⟨c.1, c.2, 0, nh⟩
    else if top.price + 1 < best.price then
      let gap := best.price - top.price
      let v := validMoves bids top.price (min gap t.orders.length)
      if 0 < v then
        let c := cancelBottomOrders t v true now
        if 0 < c.2 then
          let r := placeTop c.1 c.2 nh
          ⟨r.1, c.2, r.2.1, r.2.2⟩
        else ⟨c.1, c.2, 0, nh⟩
      else ⟨t, 0, 0, nh⟩
    else ⟨t, 0, 0, nh⟩
  | _, _ => ⟨t, 0, 0, nh⟩

/-- The body of checkAndRebalance once the cooldown gate has been passed:
trim the ladder to 5 orders, return if the book is empty, refill up to 5
orders at the bottom, then run the directional shift if any orders remain.
All gateway calls succeed in this happy-path model. -/
def rebalanceBody (t : TrackedMarket) (bids : List MarketBid) (now : ℕ) (nh : ℕ) :
    RebalanceResult :=
  let tc := if 5 < t.orders.length then cancelBottomOrders t (t.orders.length - 5) true now
            else (t, 0)
  if bids.isEmpty then ⟨tc.1, tc.2, 0, nh⟩
  else
    let tp := if tc.1.orders.length < 5 then
                openBottomOrders tc.1 (5 - tc.1.orders.length) bids nh
              else (tc.1, 0, nh)
    if tp.1.orders.isEmpty then ⟨tp.1, tc.2, tp.2.1, tp.2.2⟩
    else
      let r := directionalShift tp.1 bids now tp.2.2
      ⟨r.market, tc.2 + r.cancelled, tp.2.1 + r.placed, r.nextHash⟩

/-- checkAndRebalance of orders_manager.ts: while a cooldown is pending the
pass only cancels every resting order; an expired cooldown resets the
counter and clears the stamp before the normal body runs. -/
def checkAndRebalance (t : TrackedMarket) (bids : List MarketBid) (now : ℕ) (nh : ℕ) :
    RebalanceResult :=
  if 0 < t.cooldownUntil then
    if t.cooldownUntil ≤ now then
      rebalanceBody { t with cancelCount := 0, cooldownUntil := 0 } bids now nh
    else
      if t.orders.isEmpty then ⟨t, 0, 0, nh⟩
      else
        let c := cancelBottomOrders t t.orders.length true now
        ⟨c.1, c.2, 0, nh⟩
  else rebalanceBody t bids now nh

/-- One monitor-loop iteration for a single tracked market on which no
position was liquidated: reconcile against the gateway listing, then
rebalance.  This is the tick of the control loop. -/
def tick (t : TrackedMarket) (api : List ApiOrder) (bids : List MarketBid) (now : ℕ) (nh : ℕ) :
    RebalanceResult :=
  checkAndRebalance (syncMarket t api) bids now nh

/-- A gateway listing that matches the tracked state exactly: one open order
per tracked order, with maker/taker amounts that derive back to the tracked
price.  Used to express ticks whose remote state is unchanged. -/
def apiOf (t : TrackedMarket) : List ApiOrder :=
  t.orders.map (fun o => { marketId := t.id, hash := o.orderHash,
                           makerAmount := o.price, takerAmount := 1000, side := 0 })

/-- Strict descent by price, the ladder ordering invariant of the spec. -/
def priceDesc (a b : TrackedOrder) : Prop := b.price < a.price

instance : DecidableRel priceDesc := fun a b => inferInstanceAs (Decidable (b.price < a.price))

/-- The ladder invariant of the spec: strictly decreasing prices, every
price strictly between 0 and 1 (0 and 1000 ticks). -/
def OrdersInv (l : List TrackedOrder) : Prop :=
  l.Pairwise priceDesc ∧ ∀ o ∈ l, 0 < o.price ∧ o.price < 1000

instance (l : List TrackedOrder) : Decidable (OrdersInv l) :=
  inferInstanceAs (Decidable (l.Pairwise priceDesc ∧ ∀ o ∈ l, 0 < o.price ∧ o.price < 1000))

/-- The orders appended by the placement loop of openBottomOrders: n prices
descending one tick per order from start - i, with consecutive fresh
hashes. -/
def newBottoms (start i n nh : ℕ) : List TrackedOrder :=
  (List.range n).map (fun j => { price := start - i - j, orderHash := freshHash (nh + j) })

/-- The orders prepended by openTopOrders: n prices ascending one tick per
placement above p, listed descending since each placement re-sorts. -/
def newTops (p n nh : ℕ) : List TrackedOrder :=
  (List.range n).map (fun j => { price := p + n - j, orderHash := freshHash (nh + n - 1 - j) })

/-- The target price computation of processMarket (the ladder
initializer): anchor one tick below the depth-threshold bid and emit
min(5, 6 - k) levels descending one tick each, stopping at prices at or
below 0. -/
def targetPrices (bids : List MarketBid) : List ℕ :=
  match findStart bids with
  | none => []
  | some kp =>
    ((List.range (min 5 (6 - kp.1))).takeWhile (fun i => decide (i < kp.2 - 1))).map
      (fun i => kp.2 - 1 - i)

/-- checkAndReopenFilledOrders of orders_manager.ts for one market: closed
is the set of tracked hashes whose status is no longer OPEN, reopenOk tells
whether the replacement openOrder call succeeded, hashFor is the hash the
gateway returns for the replacement.  Orders are touched only when at least
one tracked order closed. -/
def reopenFilled (t : TrackedMarket) (closed : List String) (reopenOk : String → Bool)
    (hashFor : String → String) : TrackedMarket :=
  if (t.orders.filter (fun o => closed.contains o.orderHash)).isEmpty then t
  else
    let keep := t.orders.filter (fun o => !(closed.contains o.orderHash))
    let adds := (t.orders.filter
        (fun o => closed.contains o.orderHash && reopenOk o.orderHash)).map
      (fun o => { price := o.price, orderHash := hashFor o.orderHash : TrackedOrder })
    { t with orders := sortOrdersDesc (keep ++ adds) }

/-- One order as handed to PredictOrders.cancelOrders: the hash plus the
isNegRisk / isYieldBearing flags that decide its cancellation sub-group. -/
structure GatewayOrderData where
  hash : String
  isNegRisk : Bool
  isYieldBearing : Bool
deriving Repr, DecidableEq

/-- Per-sub-group outcome reported by the builder for one batch-cancel
call (success is result.success !== false in the source). -/
structure GroupResults where
  regular : Bool
  negRisk : Bool
  regularYieldBearing : Bool
  negRiskYieldBearing : Bool
deriving Repr, DecidableEq

/-- groupOrdersByType of orders.ts, regular sub-group. -/
def groupRegular (l : List GatewayOrderData) : List GatewayOrderData :=
  l.filter (fun o => !o.isNegRisk && !o.isYieldBearing)

/-- groupOrdersByType of orders.ts, negRisk sub-group. -/
def groupNegRisk (l : List GatewayOrderData) : List GatewayOrderData :=
  l.filter (fun o => o.isNegRisk && !o.isYieldBearing)

/-- groupOrdersByType of orders.ts, regularYieldBearing sub-group. -/
def groupRegularYB (l : List GatewayOrderData) : List GatewayOrderData :=
  l.filter (fun o => !o.isNegRisk && o.isYieldBearing)

/-- groupOrdersByType of orders.ts, negRiskYieldBearing sub-group. -/
def groupNegRiskYB (l : List GatewayOrderData) : List GatewayOrderData :=
  l.filter (fun o => o.isNegRisk && o.isYieldBearing)

/-- removeOrdersFromStorage of orders.ts: delete every hash of the given
sub-group from the persistent store. -/
def removeHashesFromStorage (storage : List String) (orders : List GatewayOrderData) :
    List String :=
  storage.filter (fun h => !((orders.map GatewayOrderData.hash).contains h))

/-- PredictOrders.cancelOrders of orders.ts: process the four sub-groups in
order; a successful nonempty sub-group is deleted from storage at once, a
failed one clears the overall success flag; the overall result is success
only when every nonempty sub-group succeeded. -/
def cancelOrdersGw (orders : List GatewayOrderData) (res : GroupResults)
    (storage : List String) : Bool × List String :=
  if orders.isEmpty then (true, storage)
  else
    let g1 := groupRegular orders
    let s1 := if !g1.isEmpty && res.regular then removeHashesFromStorage storage g1
              else storage
    let g2 := groupNegRisk orders
    let s2 := if !g2.isEmpty && res.negRisk then removeHashesFromStorage s1 g2 else s1
    let g3 := groupRegularYB orders
    let s3 := if !g3.isEmpty && res.regularYieldBearing then removeHashesFromStorage s2 g3
              else s2
    let g4 := groupNegRiskYB orders
    let s4 := if !g4.isEmpty && res.negRiskYieldBearing then removeHashesFromStorage s3 g4
              else s3
    ((g1.isEmpty || res.regular) && (g2.isEmpty || res.negRisk) &&
      (g3.isEmpty || res.regularYieldBearing) && (g4.isEmpty || res.negRiskYieldBearing),
     s4)

/-- cancelTopOrders of orders_manager.ts composed with the grouped gateway
cancellation and the persistent store: flags looks up the isNegRisk and
isYieldBearing flags of a tracked hash.  The in-memory tracked list is only
updated when the overall result reports success; storage was already
updated per sub-group inside the gateway call. -/
def cancelTopOrdersFull (t : TrackedMarket) (count : ℕ) (flags : String → Bool × Bool)
    (res : GroupResults) (storage : List String) (now : ℕ) :
    TrackedMarket × ℕ × List String :=
  let toCancel := t.orders.take count
  if toCancel.isEmpty then (t, 0, storage)
  else
    let odl := toCancel.map (fun o =>
      { hash := o.orderHash, isNegRisk := (flags o.orderHash).1,
        isYieldBearing := (flags o.orderHash).2 : GatewayOrderData })
    let r := cancelOrdersGw odl res storage
    if r.1 then
      let hs := (odl.map GatewayOrderData.hash).dedup
      (incrementCancelCount
        { t with orders := t.orders.filter (fun o => !(hs.contains o.orderHash)) }
        hs.length now,
       hs.length, r.2)
    else (t, 0, r.2)

/-- Concrete ladder 0.620 … 0.616 used by the concrete runs below. -/
def ex620 : TrackedMarket :=
  { id := 1, title := "m", cancelCount := 0, cooldownUntil := 0,
    orders := [⟨620, "a"⟩, ⟨619, "b"⟩, ⟨618, "c"⟩, ⟨617, "d"⟩, ⟨616, "e"⟩] }

/-- A book whose best bid 0.618 carries only 100 USD: the depth above any
shifted top stays under the 500 USD threshold. -/
def bids618 : List MarketBid := [⟨618, 100⟩, ⟨615, 10000⟩]

/-- A book matching the down-shift example of the spec: best bid 0.618. -/
def bids618b : List MarketBid := [⟨618, 300⟩]

/-- A stable book for ex620: best bid one tick above the top with ample
depth. -/
def bids621 : List MarketBid := [⟨621, 600⟩]

/-- A book for the exactly-5 regime of ex620: best bid 0.619. -/
def bids619 : List MarketBid := [⟨619, 600⟩]

/-- Concrete bottom ladder 0.003, 0.002, 0.001. -/
def ex321 : TrackedMarket :=
  { id := 1, title := "m", cancelCount := 0, cooldownUntil := 0,
    orders := [⟨3, "a"⟩, ⟨2, "b"⟩, ⟨1, "c"⟩] }

/-- A book with best bid 0.002. -/
def bids2 : List MarketBid := [⟨2, 100⟩]

/-- Concrete ladder 0.600 … 0.596. -/
def ex600 : TrackedMarket :=
  { id := 1, title := "m", cancelCount := 0, cooldownUntil := 0,
    orders := [⟨600, "a"⟩, ⟨599, "b"⟩, ⟨598, "c"⟩, ⟨597, "d"⟩, ⟨596, "e"⟩] }

/-- A book far above ex600 with depth over 500 at every level. -/
def bids610 : List MarketBid := [⟨610, 600⟩]

/-- The up-shift example book of the spec: best 0.604, 300 USD at 0.604 and
at 0.603. -/
def bids604 : List MarketBid := [⟨604, 300⟩, ⟨603, 300⟩]

/-- Concrete two-order ladder 0.002, 0.001 sitting on the price floor. -/
def ex21 : TrackedMarket :=
  { id := 1, title := "m", cancelCount := 0, cooldownUntil := 0,
    orders := [⟨2, "a"⟩, ⟨1, "b"⟩] }

/-- A book with best bid 0.003 and 600 USD of depth. -/
def bids3 : List MarketBid := [⟨3, 600⟩]

/-- A market with no tracked orders. -/
def exEmpty : TrackedMarket :=
  { id := 1, title := "m", cancelCount := 0, cooldownUntil := 0, orders := [] }

/-- A degenerate gateway listing: an open order with missing maker/taker
amounts, so the derived price is 0. -/
def badApi : List ApiOrder :=
  [{ marketId := 1, hash := "x", makerAmount := 0, takerAmount := 0, side := 0 }]

/-- A market inside its cooldown window. -/
def exCooldown : TrackedMarket :=
  { id := 1, title := "m", cancelCount := 11, cooldownUntil := 99,
    orders := [⟨500, "a"⟩, ⟨499, "b"⟩] }

/-- Flags marking hash a as a regular order and hash b as a negRisk
order. -/
def exFlags : String → Bool × Bool := fun h => if h = "b" then (true, false) else (false, false)

/-- Gateway outcome with the regular sub-group succeeding and the negRisk
sub-group failing. -/
def exPartial : GroupResults :=
  { regular := true, negRisk := false, regularYieldBearing := true,
    negRiskYieldBearing := true }

/-- A book reaching the 500 USD depth threshold at index 1 (price
0.699). -/
def bids6 : List MarketBid := [⟨700, 300⟩, ⟨699, 300⟩, ⟨698, 50⟩]

/-- A ladder with a wide unfillable gap: one order at 0.500 and three at the
bottom ticks, so hundreds of free positive tick prices remain although the
bottom cannot be extended. -/
def ex5004 : TrackedMarket :=
  { id := 1, title := "m", cancelCount := 0, cooldownUntil := 0,
    orders := [⟨500, "a"⟩, ⟨3, "b"⟩, ⟨2, "c"⟩, ⟨1, "d"⟩] }

/-- A book with 600 USD resting at 0.500, so the depth scan succeeds at the
first bid. -/
def bids500 : List MarketBid := [⟨500, 600⟩]

/-- The hashes deleted from the persistent store by one grouped batch
cancellation: the hashes of every nonempty sub-group whose gateway call
reported success, mirroring the four sequential conditional deletions of
PredictOrders.cancelOrders. -/
def successRemoved (orders : List GatewayOrderData) (res : GroupResults) : List String :=
  (if !(groupRegular orders).isEmpty && res.regular
    then (groupRegular orders).map GatewayOrderData.hash else [])
  ++ (if !(groupNegRisk orders).isEmpty && res.negRisk
    then (groupNegRisk orders).map GatewayOrderData.hash else [])
  ++ (if !(groupRegularYB orders).isEmpty && res.regularYieldBearing
    then (groupRegularYB orders).map GatewayOrderData.hash else [])
  ++ (if !(groupNegRiskYB orders).isEmpty && res.negRiskYieldBearing
    then (groupNegRiskYB orders).map GatewayOrderData.hash else [])

/-- The order-data records sent to the gateway for the first count tracked
orders, with their isNegRisk and isYieldBearing flags. -/
def gatewayData (t : TrackedMarket) (count : ℕ) (flags : String → Bool × Bool) :
    List GatewayOrderData :=
  (t.orders.take count).map (fun o =>
    { hash := o.orderHash, isNegRisk := (flags o.orderHash).1,
      isYieldBearing := (flags o.orderHash).2 })

/-! Theorems. -/

theorem newTrackedOrders_filter (t : TrackedMarket) (m : List ApiOrder) :
    (newTrackedOrders t m).filter
        (fun o => (m.map ApiOrder.hash).contains o.orderHash) = newTrackedOrders t m := by
  apply List.filter_eq_self.mpr
  intro o ho
  rcases List.mem_map.mp ho with ⟨a, ha, rfl⟩
  exact List.elem_eq_true_of_mem (List.mem_map.mpr ⟨a, List.mem_of_mem_filter ha, rfl⟩)

/-- C1: after a reconciliation pass in which the gateway listing succeeded,
the tracked orders of a market are exactly the previously tracked orders
whose hash is still open at the gateway (the intersection of the previous
tracked set with the gateway open set), together with the gateway open
orders of that market that were not tracked before, the latter carrying the
price derived from their maker/taker amounts; and the list is re-sorted
descending by price, and reconciliation never touches the cancellation
counter. -/
theorem reconciliation_tracked_set (t : TrackedMarket) (api : List ApiOrder) :
    ((syncMarket t api).orders).Perm
        (t.orders.filter
            (fun o => ((ordersForMarket api t.id).map ApiOrder.hash).contains o.orderHash)
          ++ newTrackedOrders t (ordersForMarket api t.id))
      ∧ List.Sorted ordDesc (syncMarket t api).orders
      ∧ (syncMarket t api).cancelCount = t.cancelCount := by
  have h1 : (syncMarket t api).orders =
      sortOrdersDesc ((t.orders ++ newTrackedOrders t (ordersForMarket api t.id)).filter
        (fun o => ((ordersForMarket api t.id).map ApiOrder.hash).contains o.orderHash)) := rfl
  refine ⟨?_, ?_, rfl⟩
  · rw [h1]
    refine (List.perm_insertionSort _ _).trans ?_
    rw [List.filter_append, newTrackedOrders_filter]
  · rw [h1]
    exact List.sorted_insertionSort _ _

theorem sorted_of_pairwise {l : List TrackedOrder} (h : l.Pairwise priceDesc) :
    List.Sorted ordDesc l :=
  h.imp (fun hab => le_of_lt hab)

theorem sortOrdersDesc_of_pairwise {l : List TrackedOrder} (h : l.Pairwise priceDesc) :
    sortOrdersDesc l = l :=
  (sorted_of_pairwise h).insertionSort_eq

theorem pairwise_append_last {l : List TrackedOrder} {o : TrackedOrder}
    (h : l.Pairwise priceDesc) (ho : ∀ x ∈ l, o.price < x.price) :
    (l ++ [o]).Pairwise priceDesc := by
  rw [List.pairwise_append]
  refine ⟨h, List.pairwise_singleton _ _, ?_⟩
  intro a ha b hb
  rcases List.mem_singleton.mp hb with rfl
  exact ho a ha

theorem pairwise_cons_head {l : List TrackedOrder} {o : TrackedOrder}
    (h : l.Pairwise priceDesc) (ho : ∀ x ∈ l, x.price < o.price) :
    (o :: l).Pairwise priceDesc :=
  List.Pairwise.cons (fun x hx => ho x hx) h

theorem getLast?_le_of_pairwise :
    ∀ {l : List TrackedOrder} {a : TrackedOrder}, l.getLast? = some a →
      l.Pairwise priceDesc → ∀ x ∈ l, a.price ≤ x.price
  | [], _, h, _, _, hx => by cases h
  | [y], a, h, _, x, hx => by
      rcases List.mem_singleton.mp hx with rfl
      simp only [List.getLast?_singleton, Option.some_inj] at h
      rw [h]
  | y :: z :: l, a, h, hp, x, hx => by
      rw [List.getLast?_cons_cons] at h
      have ih := getLast?_le_of_pairwise h hp.of_cons
      rcases List.mem_cons.mp hx with rfl | hx
      · have hz : a.price ≤ z.price := ih z (List.mem_cons_self _ _)
        have hzx : priceDesc x z := List.rel_of_pairwise_cons hp (List.mem_cons_self _ _)
        exact le_of_lt (lt_of_le_of_lt hz hzx)
      · exact ih x hx

theorem length_le_of_nodup_subset {hs l : List String} (hN : hs.Nodup) (hsub : hs ⊆ l) :
    hs.length ≤ l.length := by
  calc hs.length = hs.toFinset.card := (List.toFinset_card_of_nodup hN).symm
    _ ≤ l.toFinset.card :=
        Finset.card_le_card (fun x hx => List.mem_toFinset.mpr (hsub (List.mem_toFinset.mp hx)))
    _ ≤ l.length := l.toFinset_card_le

/-- Dropping the orders whose hash was batch-cancelled can only shorten the
list by at least the number of distinct hashes attempted. -/
theorem filter_not_contains_length {l : List TrackedOrder} {hs : List String}
    (hN : hs.Nodup) (hsub : ∀ x ∈ hs, x ∈ l.map TrackedOrder.orderHash) :
    (l.filter (fun o => !(hs.contains o.orderHash))).length + hs.length ≤ l.length := by
  have hsplit := (List.length_eq_length_filter_add
    (l := l) (fun o => !(hs.contains o.orderHash)))
  have hrem : hs.length ≤ (l.filter (fun o => !(!(hs.contains o.orderHash)))).length := by
    have hsub2 : hs ⊆ (l.filter (fun o => !(!(hs.contains o.orderHash)))).map
        TrackedOrder.orderHash := by
      intro x hx
      rcases List.mem_map.mp (hsub x hx) with ⟨o, ho, rfl⟩
      refine List.mem_map.mpr ⟨o, List.mem_filter.mpr ⟨ho, ?_⟩, rfl⟩
      simp only [Bool.not_not]
      exact List.elem_eq_true_of_mem hx
    calc hs.length ≤ ((l.filter (fun o => !(!(hs.contains o.orderHash)))).map
        TrackedOrder.orderHash).length := length_le_of_nodup_subset hN hsub2
      _ = _ := List.length_map _ _
  omega

/-- Filtering a split list by the complement of a hash set that covers
exactly the tail part keeps exactly the head part, provided all hashes are
distinct. -/
theorem filter_not_hashes_keep_pre (pre post : List TrackedOrder) (hs : List String)
    (hN : ((pre ++ post).map TrackedOrder.orderHash).Nodup)
    (hmem : ∀ x, x ∈ hs ↔ x ∈ post.map TrackedOrder.orderHash) :
    (pre ++ post).filter (fun o => !(hs.contains o.orderHash)) = pre := by
  rw [List.filter_append]
  have hdisj : (pre.map TrackedOrder.orderHash).Disjoint
      (post.map TrackedOrder.orderHash) := by
    rw [List.map_append, List.nodup_append] at hN
    exact hN.2.2
  have h1 : pre.filter (fun o => !(hs.contains o.orderHash)) = pre := by
    apply List.filter_eq_self.mpr
    intro a ha
    have hmem1 : a.orderHash ∈ pre.map TrackedOrder.orderHash := List.mem_map.mpr ⟨a, ha, rfl⟩
    cases hc : hs.contains a.orderHash
    · rfl
    · exact absurd ((hmem _).mp (List.mem_of_elem_eq_true hc)) (hdisj hmem1)
  have h2 : post.filter (fun o => !(hs.contains o.orderHash)) = [] := by
    apply List.filter_eq_nil_iff.mpr
    intro a ha
    have hmm : a.orderHash ∈ hs :=
      (hmem _).mpr (List.mem_map.mpr ⟨a, ha, rfl⟩)
    simpa using hmm
  rw [h1, h2, List.append_nil]

/-- Symmetric version: a hash set covering exactly the head part keeps
exactly the tail part. -/
theorem filter_not_hashes_keep_post (pre post : List TrackedOrder) (hs : List String)
    (hN : ((pre ++ post).map TrackedOrder.orderHash).Nodup)
    (hmem : ∀ x, x ∈ hs ↔ x ∈ pre.map TrackedOrder.orderHash) :
    (pre ++ post).filter (fun o => !(hs.contains o.orderHash)) = post := by
  rw [List.filter_append]
  have hdisj : (pre.map TrackedOrder.orderHash).Disjoint
      (post.map TrackedOrder.orderHash) := by
    rw [List.map_append, List.nodup_append] at hN
    exact hN.2.2
  have h1 : pre.filter (fun o => !(hs.contains o.orderHash)) = [] := by
    apply List.filter_eq_nil_iff.mpr
    intro a ha
    have hmm : a.orderHash ∈ hs :=
      (hmem _).mpr (List.mem_map.mpr ⟨a, ha, rfl⟩)
    simpa using hmm
  have h2 : post.filter (fun o => !(hs.contains o.orderHash)) = post := by
    apply List.filter_eq_self.mpr
    intro a ha
    have hmem2 : a.orderHash ∈ post.map TrackedOrder.orderHash := List.mem_map.mpr ⟨a, ha, rfl⟩
    cases hc : hs.contains a.orderHash
    · rfl
    · exact absurd hmem2 (hdisj ((hmem _).mp (List.mem_of_elem_eq_true hc)))
  rw [h1, h2, List.nil_append]

theorem filter_not_take_dedup (l : List TrackedOrder) (k : ℕ)
    (hN : (l.map TrackedOrder.orderHash).Nodup) :
    l.filter
        (fun o => !((((l.take k).map TrackedOrder.orderHash).dedup).contains o.orderHash))
      = l.drop k := by
  have h := filter_not_hashes_keep_post (l.take k) (l.drop k)
    (((l.take k).map TrackedOrder.orderHash).dedup)
    (by rw [List.take_append_drop]; exact hN)
    (fun x => List.mem_dedup)
  rwa [List.take_append_drop] at h

theorem filter_not_revtake_dedup (l : List TrackedOrder) (k : ℕ)
    (hN : (l.map TrackedOrder.orderHash).Nodup) :
    l.filter
        (fun o => !((((l.reverse.take k).map TrackedOrder.orderHash).dedup).contains
          o.orderHash))
      = l.take (l.length - k) := by
  have hrev : l.reverse.take k = (l.drop (l.length - k)).reverse := List.take_reverse
  have hmemd : ∀ x, x ∈ ((l.reverse.take k).map TrackedOrder.orderHash).dedup ↔
      x ∈ (l.drop (l.length - k)).map TrackedOrder.orderHash := by
    intro x
    rw [List.mem_dedup, hrev, List.map_reverse, List.mem_reverse]
  have h := filter_not_hashes_keep_pre (l.take (l.length - k)) (l.drop (l.length - k))
    (((l.reverse.take k).map TrackedOrder.orderHash).dedup)
    (by rw [List.take_append_drop]; exact hN)
    hmemd
  rwa [List.take_append_drop] at h

theorem take_isEmpty_false {l : List TrackedOrder} {k : ℕ} (hk : 0 < k) (hl : l ≠ []) :
    (l.take k).isEmpty = false := by
  rcases l with _ | ⟨a, m⟩
  · exact absurd rfl hl
  · rcases k with _ | k
    · exact absurd hk (lt_irrefl 0)
    · rfl

/-- cancelTopOrders on a successful batch, with distinct tracked hashes:
the first k tracked orders (all of them when k exceeds the length) are
removed and counted. -/
theorem cancelTopOrders_spec (t : TrackedMarket) (k now : ℕ)
    (hN : (t.orders.map TrackedOrder.orderHash).Nodup) (hk : 0 < k) (ho : t.orders ≠ []) :
    cancelTopOrders t k true now =
      (incrementCancelCount { t with orders := t.orders.drop k }
        (min k t.orders.length) now,
       min k t.orders.length) := by
  have hne : (t.orders.take k).isEmpty = false := take_isEmpty_false hk ho
  have hNt : ((t.orders.take k).map TrackedOrder.orderHash).Nodup :=
    List.Nodup.sublist (List.Sublist.map _ (List.take_sublist _ _)) hN
  have hlen : (((t.orders.take k).map TrackedOrder.orderHash).dedup).length
      = min k t.orders.length := by
    rw [hNt.dedup, List.length_map, List.length_take]
  simp only [cancelTopOrders, hne, Bool.false_eq_true, if_false, if_true,
    filter_not_take_dedup t.orders k hN, hlen]

/-- cancelBottomOrders on a successful batch, with distinct tracked hashes:
the last k tracked orders are removed and counted. -/
theorem cancelBottomOrders_spec (t : TrackedMarket) (k now : ℕ)
    (hN : (t.orders.map TrackedOrder.orderHash).Nodup) (hk : 0 < k) (ho : t.orders ≠ []) :
    cancelBottomOrders t k true now =
      (incrementCancelCount { t with orders := t.orders.take (t.orders.length - k) }
        (min k t.orders.length) now,
       min k t.orders.length) := by
  have hrev : t.orders.reverse.take k = (t.orders.drop (t.orders.length - k)).reverse :=
    List.take_reverse
  have hne : (t.orders.reverse.take k).isEmpty = false :=
    take_isEmpty_false hk (fun h => ho (List.reverse_eq_nil_iff.mp h))
  have hNd : ((t.orders.drop (t.orders.length - k)).map TrackedOrder.orderHash).Nodup :=
    List.Nodup.sublist (List.Sublist.map _ (List.drop_sublist _ _)) hN
  have hlen : (((t.orders.reverse.take k).map TrackedOrder.orderHash).dedup).length
      = min k t.orders.length := by
    have hNr : ((t.orders.reverse.take k).map TrackedOrder.orderHash).Nodup := by
      rw [hrev, List.map_reverse]
      exact List.nodup_reverse.mpr hNd
    rw [hNr.dedup, List.length_map, List.length_take, List.length_reverse]
  simp only [cancelBottomOrders, hne, Bool.false_eq_true, if_false, if_true,
    filter_not_revtake_dedup t.orders k hN, hlen]

theorem newBottoms_succ (start i n nh : ℕ) :
    newBottoms start i (n + 1) nh =
      { price := start - i, orderHash := freshHash nh } ::
        newBottoms start (i + 1) n (nh + 1) := by
  unfold newBottoms
  rw [List.range_succ_eq_map, List.map_cons, List.map_map]
  refine congrArg₂ _ ?_ ?_
  · simp
  · refine List.map_congr_left ?_
    intro j _
    simp only [Function.comp_apply, Nat.succ_eq_add_one]
    refine congrArg₂ _ ?_ ?_
    · omega
    · refine congrArg _ ?_
      omega

theorem placeBottom_spec : ∀ (c : ℕ) (t : TrackedMarket) (start i nh : ℕ),
    t.orders.Pairwise priceDesc → (∀ x ∈ t.orders, start - i < x.price) →
    placeBottom t start c i nh =
      ({ t with orders := t.orders ++ newBottoms start i (min c (start - i)) nh },
       min c (start - i), nh + min c (start - i))
  | 0, t, start, i, nh, _, _ => by
      simp only [placeBottom, newBottoms, Nat.zero_min, List.range_zero, List.map_nil,
        List.append_nil, Nat.add_zero]
  | c + 1, t, start, i, nh, hP, hlt => by
      by_cases hs0 : start - i = 0
      · have hred : placeBottom t start (c + 1) i nh = (t, 0, nh) := by
          simp only [placeBottom]
          rw [if_pos hs0]
        rw [hred, hs0]
        simp only [Nat.min_zero, newBottoms, List.range_zero, List.map_nil, List.append_nil,
          Nat.add_zero]
      · have hsort : sortOrdersDesc (t.orders ++
            [{ price := start - i, orderHash := freshHash nh }]) =
              t.orders ++ [{ price := start - i, orderHash := freshHash nh }] :=
          sortOrdersDesc_of_pairwise (pairwise_append_last hP (fun x hx => hlt x hx))
        have hP1 : List.Pairwise priceDesc (t.orders ++
            [{ price := start - i, orderHash := freshHash nh }]) :=
          pairwise_append_last hP (fun x hx => hlt x hx)
        have hlt1 : ∀ x ∈ t.orders ++ [{ price := start - i, orderHash := freshHash nh }],
            start - (i + 1) < x.price := by
          intro x hx
          rcases List.mem_append.mp hx with hx | hx
          · have := hlt x hx
            omega
          · rcases List.mem_singleton.mp hx with rfl
            show start - (i + 1) < start - i
            omega
        have ih := placeBottom_spec c
          { t with orders := t.orders ++ [{ price := start - i, orderHash := freshHash nh }] }
          start (i + 1) (nh + 1) hP1 hlt1
        simp only [placeBottom]
        rw [if_neg hs0, hsort, ih]
        have hlist : (t.orders ++ [{ price := start - i, orderHash := freshHash nh }]) ++
            newBottoms start (i + 1) (min c (start - (i + 1))) (nh + 1) =
              t.orders ++ newBottoms start i (min (c + 1) (start - i)) nh := by
          have hmin : min (c + 1) (start - i) = min c (start - (i + 1)) + 1 := by omega
          rw [hmin, newBottoms_succ, List.append_assoc]
          rfl
        simp only [hlist]
        refine congrArg₂ _ rfl ?_
        refine congrArg₂ _ ?_ ?_
        · omega
        · omega

theorem newTops_succ (p n nh : ℕ) :
    newTops p (n + 1) nh =
      newTops (p + 1) n (nh + 1) ++ [{ price := p + 1, orderHash := freshHash nh }] := by
  unfold newTops
  rw [List.range_succ, List.map_append]
  refine congrArg₂ _ ?_ ?_
  · refine List.map_congr_left ?_
    intro j hj
    have hjn : j < n := List.mem_range.mp hj
    refine congrArg₂ _ ?_ ?_
    · omega
    · refine congrArg _ ?_
      omega
  · simp only [List.map_cons, List.map_nil]
    refine congrArg₂ _ ?_ rfl
    refine congrArg₂ _ ?_ ?_
    · omega
    · refine congrArg _ ?_
      omega

theorem placeTop_spec : ∀ (c : ℕ) (t : TrackedMarket) (top : TrackedOrder)
    (rest : List TrackedOrder) (nh : ℕ),
    t.orders = top :: rest → t.orders.Pairwise priceDesc →
    placeTop t c nh =
      ({ t with orders := newTops top.price (min c (999 - top.price)) nh ++ t.orders },
       min c (999 - top.price), nh + min c (999 - top.price))
  | 0, t, top, rest, nh, htl, _ => by
      simp only [placeTop, newTops, Nat.zero_min, List.range_zero, List.map_nil,
        List.nil_append, Nat.add_zero]
  | c + 1, t, top, rest, nh, htl, hP => by
      by_cases hcap : 1000 ≤ top.price + 1
      · have hmin : min (c + 1) (999 - top.price) = 0 := by omega
        have hred : placeTop t (c + 1) nh = (t, 0, nh) := by
          simp only [placeTop, htl]
          rw [if_pos hcap]
        rw [hred, hmin]
        simp only [newTops, List.range_zero, List.map_nil, List.nil_append, Nat.add_zero]
      · have hP0 : (top :: rest).Pairwise priceDesc := htl ▸ hP
        have hP1 : List.Pairwise priceDesc ({ price := top.price + 1, orderHash := freshHash nh } ::
            (top :: rest)) := by
          refine pairwise_cons_head hP0 ?_
          intro x hx
          rcases List.mem_cons.mp hx with rfl | hx
          · show x.price < x.price + 1
            omega
          · have hrel : priceDesc top x := List.rel_of_pairwise_cons hP0 hx
            have hlt : x.price < top.price := hrel
            show x.price < top.price + 1
            omega
        have hsort : sortOrdersDesc ({ price := top.price + 1, orderHash := freshHash nh } ::
            (top :: rest)) =
              { price := top.price + 1, orderHash := freshHash nh } :: (top :: rest) :=
          sortOrdersDesc_of_pairwise hP1
        have ih := placeTop_spec c
          { t with orders :=
            { price := top.price + 1, orderHash := freshHash nh } :: (top :: rest) }
          { price := top.price + 1, orderHash := freshHash nh } (top :: rest) (nh + 1) rfl hP1
        simp only [placeTop, htl]
        rw [if_neg hcap, hsort, ih]
        have hlist : newTops (top.price + 1) (min c (999 - (top.price + 1))) (nh + 1) ++
            ({ price := top.price + 1, orderHash := freshHash nh } :: (top :: rest)) =
              newTops top.price (min (c + 1) (999 - top.price)) nh ++ (top :: rest) := by
          have hmin : min (c + 1) (999 - top.price) =
              min c (999 - (top.price + 1)) + 1 := by omega
          rw [hmin, newTops_succ, List.append_assoc]
          rfl
        simp only [hlist]
        refine congrArg₂ _ rfl ?_
        refine congrArg₂ _ ?_ ?_
        · omega
        · omega

theorem incrementCancelCount_cancelCount (t : TrackedMarket) (k now : ℕ) :
    (incrementCancelCount t k now).cancelCount = t.cancelCount + k := by
  simp only [incrementCancelCount]
  split
  · rfl
  · rfl

theorem incrementCancelCount_orders (t : TrackedMarket) (k now : ℕ) :
    (incrementCancelCount t k now).orders = t.orders := by
  simp only [incrementCancelCount]
  split
  · rfl
  · rfl

theorem incrementCancelCount_cooldown_set (t : TrackedMarket) (k now : ℕ)
    (h0 : t.cooldownUntil = 0) (h10 : 10 ≤ t.cancelCount + k) :
    (incrementCancelCount t k now).cooldownUntil = now + 30 * 60 * 1000 := by
  simp only [incrementCancelCount]
  rw [if_pos ⟨h10, h0⟩]

theorem incrementCancelCount_cooldown_zero (t : TrackedMarket) (k now : ℕ)
    (h0 : t.cooldownUntil = 0) (hlt : t.cancelCount + k < 10) :
    (incrementCancelCount t k now).cooldownUntil = 0 := by
  simp only [incrementCancelCount]
  rw [if_neg (fun hc => absurd hc.1 (by omega : ¬ 10 ≤ t.cancelCount + k))]
  exact h0

theorem incrementCancelCount_cooldown_keep (t : TrackedMarket) (k now : ℕ)
    (h : t.cooldownUntil ≠ 0) :
    (incrementCancelCount t k now).cooldownUntil = t.cooldownUntil := by
  simp only [incrementCancelCount]
  rw [if_neg (fun hc => absurd hc.2 h)]

theorem cancelTopOrders_fail (t : TrackedMarket) (k now : ℕ) :
    cancelTopOrders t k false now = (t, 0) := by
  simp only [cancelTopOrders, Bool.false_eq_true, if_false]
  split
  · rfl
  · rfl

theorem cancelBottomOrders_fail (t : TrackedMarket) (k now : ℕ) :
    cancelBottomOrders t k false now = (t, 0) := by
  simp only [cancelBottomOrders, Bool.false_eq_true, if_false]
  split
  · rfl
  · rfl

/-- C10: for every call of cancelTopOrders or cancelBottomOrders with a
positive order count within the ladder length and distinct tracked hashes:
a batch reported as overall failure returns 0 and leaves the whole market
(tracked list and cancelCount) exactly as it was; a batch reported as
overall success removes exactly the attempted orders (the first k from the
top, respectively the last k from the bottom), increments cancelCount by
exactly k and returns k. -/
theorem cancel_batch_result (t : TrackedMarket) (k now : ℕ)
    (hN : (t.orders.map TrackedOrder.orderHash).Nodup) (hk : 0 < k)
    (hkl : k ≤ t.orders.length) :
    cancelTopOrders t k false now = (t, 0)
    ∧ cancelBottomOrders t k false now = (t, 0)
    ∧ (cancelTopOrders t k true now).1.orders = t.orders.drop k
    ∧ (cancelTopOrders t k true now).1.cancelCount = t.cancelCount + k
    ∧ (cancelTopOrders t k true now).2 = k
    ∧ (cancelBottomOrders t k true now).1.orders = t.orders.take (t.orders.length - k)
    ∧ (cancelBottomOrders t k true now).1.cancelCount = t.cancelCount + k
    ∧ (cancelBottomOrders t k true now).2 = k := by
  have ho : t.orders ≠ [] := by
    have : 0 < t.orders.length := by omega
    exact List.length_pos.mp this
  have hmin : min k t.orders.length = k := Nat.min_eq_left hkl
  have htop := cancelTopOrders_spec t k now hN hk ho
  have hbot := cancelBottomOrders_spec t k now hN hk ho
  refine ⟨cancelTopOrders_fail t k now, cancelBottomOrders_fail t k now, ?_, ?_, ?_, ?_, ?_, ?_⟩
  · rw [htop]
    show (incrementCancelCount _ _ _).orders = _
    rw [incrementCancelCount_orders]
  · rw [htop]
    show (incrementCancelCount _ _ _).cancelCount = _
    rw [incrementCancelCount_cancelCount, hmin]
  · rw [htop, hmin]
  · rw [hbot]
    show (incrementCancelCount _ _ _).orders = _
    rw [incrementCancelCount_orders]
  · rw [hbot]
    show (incrementCancelCount _ _ _).cancelCount = _
    rw [incrementCancelCount_cancelCount, hmin]
  · rw [hbot, hmin]

theorem cancel_batch_result_witness :
    cancelTopOrders ex21 1 false 0 = (ex21, 0)
    ∧ cancelBottomOrders ex21 1 false 0 = (ex21, 0)
    ∧ (cancelTopOrders ex21 1 true 0).1.orders = ex21.orders.drop 1
    ∧ (cancelTopOrders ex21 1 true 0).1.cancelCount = ex21.cancelCount + 1
    ∧ (cancelTopOrders ex21 1 true 0).2 = 1
    ∧ (cancelBottomOrders ex21 1 true 0).1.orders = ex21.orders.take (ex21.orders.length - 1)
    ∧ (cancelBottomOrders ex21 1 true 0).1.cancelCount = ex21.cancelCount + 1
    ∧ (cancelBottomOrders ex21 1 true 0).2 = 1 :=
  cancel_batch_result ex21 1 0 (by decide) (by decide) (by decide)

theorem cancelBottomOrders_all_orders (t : TrackedMarket) (now : ℕ) (ho : t.orders ≠ []) :
    ((cancelBottomOrders t t.orders.length true now).1).orders = [] := by
  have hlp : 0 < t.orders.length := List.length_pos.mpr ho
  have hne : (t.orders.reverse.take t.orders.length).isEmpty = false :=
    take_isEmpty_false hlp (fun h => ho (List.reverse_eq_nil_iff.mp h))
  have htake : t.orders.reverse.take t.orders.length = t.orders.reverse := by
    rw [← List.length_reverse]
    exact List.take_length _
  have hfil : t.orders.filter
      (fun o => !((((t.orders.reverse.take t.orders.length).map
        TrackedOrder.orderHash).dedup).contains o.orderHash)) = [] := by
    apply List.filter_eq_nil_iff.mpr
    intro a ha
    have hmm : a.orderHash ∈ (((t.orders.reverse.take t.orders.length).map
        TrackedOrder.orderHash).dedup) := by
      rw [List.mem_dedup, htake, List.map_reverse, List.mem_reverse]
      exact List.mem_map.mpr ⟨a, ha, rfl⟩
    simpa using hmm
  simp only [cancelBottomOrders, hne, Bool.false_eq_true, if_false, if_true, hfil]
  rw [incrementCancelCount_orders]

theorem cancelBottomOrders_cooldown_keep (t : TrackedMarket) (k now : ℕ) (ok : Bool)
    (h : t.cooldownUntil ≠ 0) :
    ((cancelBottomOrders t k ok now).1).cooldownUntil = t.cooldownUntil := by
  simp only [cancelBottomOrders]
  split
  · rfl
  · split
    · exact incrementCancelCount_cooldown_keep _ _ _ h
    · rfl

/-- C5: the cooldown state machine.  Reconciliation never changes the
cancellation counter or the cooldown stamp; a failed cancel batch never
changes the market; incrementCancelCount adds exactly the batch size, sets
cooldownUntil to now plus 30 minutes exactly when the counter reaches 10
with no cooldown pending, leaves it 0 while the counter stays under 10, and
never overwrites a pending cooldown; a tick that starts strictly inside the
cooldown window cancels every resting order, places nothing and keeps the
stamp; a tick that starts at or after the stamp runs the normal body on the
reset market (counter 0, stamp cleared). -/
theorem cooldown_state_machine :
    (∀ t api, (syncMarket t api).cancelCount = t.cancelCount
      ∧ (syncMarket t api).cooldownUntil = t.cooldownUntil)
    ∧ (∀ t k now, cancelTopOrders t k false now = (t, 0)
      ∧ cancelBottomOrders t k false now = (t, 0))
    ∧ (∀ t k now, (incrementCancelCount t k now).cancelCount = t.cancelCount + k)
    ∧ (∀ t k now, t.cooldownUntil = 0 → 10 ≤ t.cancelCount + k →
        (incrementCancelCount t k now).cooldownUntil = now + 30 * 60 * 1000)
    ∧ (∀ t k now, t.cooldownUntil = 0 → t.cancelCount + k < 10 →
        (incrementCancelCount t k now).cooldownUntil = 0)
    ∧ (∀ t k now, t.cooldownUntil ≠ 0 →
        (incrementCancelCount t k now).cooldownUntil = t.cooldownUntil)
    ∧ (∀ t bids now nh, 0 < t.cooldownUntil → now < t.cooldownUntil →
        (checkAndRebalance t bids now nh).market.orders = []
        ∧ (checkAndRebalance t bids now nh).placed = 0
        ∧ (checkAndRebalance t bids now nh).market.cooldownUntil = t.cooldownUntil)
    ∧ (∀ t bids now nh, 0 < t.cooldownUntil → t.cooldownUntil ≤ now →
        checkAndRebalance t bids now nh =
          rebalanceBody { t with cancelCount := 0, cooldownUntil := 0 } bids now nh) := by
  refine ⟨fun t api => ⟨rfl, rfl⟩,
    fun t k now => ⟨cancelTopOrders_fail t k now, cancelBottomOrders_fail t k now⟩,
    incrementCancelCount_cancelCount,
    incrementCancelCount_cooldown_set,
    incrementCancelCount_cooldown_zero,
    incrementCancelCount_cooldown_keep,
    ?_, ?_⟩
  · intro t bids now nh hpos hlt
    have hred : checkAndRebalance t bids now nh =
        (if t.orders.isEmpty then ⟨t, 0, 0, nh⟩
         else ⟨(cancelBottomOrders t t.orders.length true now).1,
               (cancelBottomOrders t t.orders.length true now).2, 0, nh⟩) := by
      simp only [checkAndRebalance]
      rw [if_pos hpos, if_neg (by omega : ¬ t.cooldownUntil ≤ now)]
    rcases hol : t.orders with _ | ⟨a, l⟩
    · rw [hred]
      simp [hol]
    · have hne : t.orders ≠ [] := by
        rw [hol]
        exact List.cons_ne_nil a l
      have hie : t.orders.isEmpty = false := by
        rw [hol]
        rfl
      rw [hred, hie]
      simp only [Bool.false_eq_true, if_false]
      exact ⟨cancelBottomOrders_all_orders t now hne, by trivial,
        cancelBottomOrders_cooldown_keep t t.orders.length now true (by omega)⟩
  · intro t bids now nh hpos hle
    simp only [checkAndRebalance]
    rw [if_pos hpos, if_pos hle]

theorem cooldown_state_machine_witness :
    (incrementCancelCount exEmpty 10 5).cooldownUntil = 5 + 30 * 60 * 1000
    ∧ (checkAndRebalance exCooldown bids618 0 0).market.orders = []
    ∧ (checkAndRebalance exCooldown bids618 0 0).placed = 0
    ∧ (checkAndRebalance exCooldown bids618 0 0).market.cooldownUntil =
        exCooldown.cooldownUntil
    ∧ checkAndRebalance exCooldown bids618 99 0 =
        rebalanceBody { exCooldown with cancelCount := 0, cooldownUntil := 0 } bids618 99 0 := by
  refine ⟨cooldown_state_machine.2.2.2.1 exEmpty 10 5 (by decide) (by decide), ?_, ?_, ?_, ?_⟩
  · exact (cooldown_state_machine.2.2.2.2.2.2.1 exCooldown bids618 0 0 (by decide)
      (by decide)).1
  · exact (cooldown_state_machine.2.2.2.2.2.2.1 exCooldown bids618 0 0 (by decide)
      (by decide)).2.1
  · exact (cooldown_state_machine.2.2.2.2.2.2.1 exCooldown bids618 0 0 (by decide)
      (by decide)).2.2
  · exact cooldown_state_machine.2.2.2.2.2.2.2 exCooldown bids618 99 0 (by decide) (by decide)

theorem countAtOrAbove_eq_countP :
    ∀ {l : List TrackedOrder}, l.Pairwise priceDesc → ∀ best : ℕ,
      countAtOrAbove l best = l.countP (fun o => decide (best ≤ o.price))
  | [], _, best => rfl
  | a :: l, hP, best => by
      by_cases hab : best ≤ a.price
      · have ht : (a :: l).takeWhile (fun o => decide (best ≤ o.price)) =
            a :: l.takeWhile (fun o => decide (best ≤ o.price)) := by
          rw [List.takeWhile_cons]
          rw [if_pos (by simpa using hab)]
        unfold countAtOrAbove
        rw [ht, List.length_cons, List.countP_cons_of_pos _ _ (by simpa using hab)]
        have ih := countAtOrAbove_eq_countP hP.of_cons best
        unfold countAtOrAbove at ih
        omega
      · have ht : (a :: l).takeWhile (fun o => decide (best ≤ o.price)) = [] := by
          rw [List.takeWhile_cons]
          rw [if_neg (by simpa using hab)]
        have hz : l.countP (fun o => decide (best ≤ o.price)) = 0 := by
          apply List.countP_eq_zero.mpr
          intro x hx
          have hx2 : priceDesc a x := List.rel_of_pairwise_cons hP hx
          have : x.price < a.price := hx2
          simp only [decide_eq_true_eq]
          omega
        unfold countAtOrAbove
        rw [ht, List.countP_cons_of_neg _ _ (by simpa using hab), hz]
        rfl

theorem getLast?_drop : ∀ (l : List TrackedOrder) (k : ℕ), l.drop k ≠ [] →
    (l.drop k).getLast? = l.getLast?
  | l, 0, _ => rfl
  | [], k + 1, h => absurd rfl h
  | a :: l, k + 1, h => by
      have hne : l.drop k ≠ [] := by
        intro he
        apply h
        rw [List.drop_succ_cons, he]
      rw [List.drop_succ_cons, getLast?_drop l k hne]
      rcases hl : l with _ | ⟨b, m⟩
      · rw [hl] at hne
        exact absurd (List.drop_nil) hne
      · rw [List.getLast?_cons_cons]

/-- Full description of one down-shift of the rebalancer, shared by the
claims about the directional shift and the ladder size. -/
theorem downshift_run (t : TrackedMarket) (best : MarketBid) (brest : List MarketBid)
    (top low : TrackedOrder) (now nh : ℕ)
    (hP : t.orders.Pairwise priceDesc)
    (hN : (t.orders.map TrackedOrder.orderHash).Nodup)
    (hne : t.orders ≠ [])
    (hhead : t.orders.head? = some top)
    (hlast : t.orders.getLast? = some low)
    (htrig : best.price ≤ top.price
       ∨ depthAbove (best :: brest) top.price < VALUE_THRESHOLD)
    (hk : min (max 1 (countAtOrAbove t.orders best.price)) t.orders.length
       < t.orders.length)
    (hlow : min (max 1 (countAtOrAbove t.orders best.price)) t.orders.length < low.price) :
    (directionalShift t (best :: brest) now nh).cancelled =
        min (max 1 (countAtOrAbove t.orders best.price)) t.orders.length
    ∧ (directionalShift t (best :: brest) now nh).placed =
        min (max 1 (countAtOrAbove t.orders best.price)) t.orders.length
    ∧ (directionalShift t (best :: brest) now nh).market.orders =
        t.orders.drop (min (max 1 (countAtOrAbove t.orders best.price)) t.orders.length)
          ++ newBottoms (low.price - 1) 0
              (min (max 1 (countAtOrAbove t.orders best.price)) t.orders.length) nh
    ∧ (directionalShift t (best :: brest) now nh).market.cancelCount =
        t.cancelCount + min (max 1 (countAtOrAbove t.orders best.price)) t.orders.length
    ∧ countAtOrAbove t.orders best.price =
        t.orders.countP (fun o => decide (best.price ≤ o.price)) := by
  set K := min (max 1 (countAtOrAbove t.orders best.price)) t.orders.length with hK
  obtain ⟨orest, hol⟩ : ∃ orest, t.orders = top :: orest := by
    rcases ho : t.orders with _ | ⟨a, l⟩
    · rw [ho] at hhead
      cases hhead
    · rw [ho] at hhead
      rw [List.head?_cons, Option.some_inj] at hhead
      exact ⟨l, by rw [hhead]⟩
  have hlen : 0 < t.orders.length := List.length_pos.mpr hne
  have hkpos : 0 < K := by
    have h1 : 1 ≤ max 1 (countAtOrAbove t.orders best.price) := le_max_left _ _
    omega
  have hlow2 : 2 ≤ low.price := by omega
  have hcs := cancelTopOrders_spec t K now hN hkpos hne
  rw [Nat.min_eq_left (le_of_lt hk)] at hcs
  have hdropne : t.orders.drop K ≠ [] := by
    intro hd
    have hdl := congrArg List.length hd
    rw [List.length_drop] at hdl
    simp only [List.length_nil] at hdl
    omega
  have hlastd : (t.orders.drop K).getLast? = some low := by
    rw [getLast?_drop _ _ hdropne]
    exact hlast
  have hPd : (t.orders.drop K).Pairwise priceDesc :=
    List.Pairwise.sublist (List.drop_sublist _ _) hP
  have hlo : ∀ x ∈ t.orders.drop K, low.price - 1 - 0 < x.price := by
    intro x hx
    have hxm : x ∈ t.orders := List.mem_of_mem_drop hx
    have := getLast?_le_of_pairwise hlast hP x hxm
    omega
  have htm : (incrementCancelCount { t with orders := t.orders.drop K } K now).orders =
      t.orders.drop K := by
    rw [incrementCancelCount_orders]
  have hpb := placeBottom_spec K
    (incrementCancelCount { t with orders := t.orders.drop K } K now)
    (low.price - 1) 0 nh (by rw [htm]; exact hPd) (by rw [htm]; exact hlo)
  have hminb : min K (low.price - 1 - 0) = K := by omega
  rw [hminb] at hpb
  have hob : openBottomOrders
      (incrementCancelCount { t with orders := t.orders.drop K } K now)
      K (best :: brest) nh =
        placeBottom (incrementCancelCount { t with orders := t.orders.drop K } K now)
          (low.price - 1) K 0 nh := by
    simp only [openBottomOrders, htm, hlastd]
  have hred : directionalShift t (best :: brest) now nh =
      ⟨(placeBottom (incrementCancelCount { t with orders := t.orders.drop K } K now)
          (low.price - 1) K 0 nh).1,
       K,
       (placeBottom (incrementCancelCount { t with orders := t.orders.drop K } K now)
          (low.price - 1) K 0 nh).2.1,
       (placeBottom (incrementCancelCount { t with orders := t.orders.drop K } K now)
          (low.price - 1) K 0 nh).2.2⟩ := by
    have htrig2 : best.price ≤ top.price
        ∨ depthAbove (best :: brest) top.price < VALUE_THRESHOLD := htrig
    rw [hol] at hK
    simp only [directionalShift, hol]
    rw [if_pos htrig2, ← hK, ← hol, hcs]
    rw [if_pos hkpos, hob]
  rw [hred, hpb]
  refine ⟨rfl, rfl, ?_, ?_, countAtOrAbove_eq_countP hP best.price⟩
  · show (incrementCancelCount { t with orders := t.orders.drop K } K now).orders ++ _ = _
    rw [htm]
  · show (incrementCancelCount { t with orders := t.orders.drop K } K now).cancelCount = _
    rw [incrementCancelCount_cancelCount]

/-- C2 (amended): for a non-empty strictly descending ladder with distinct
hashes and a non-empty book, whenever the best bid is at or below the top
tracked price or the scanned value of bids strictly above the top is under
500, the rebalancer cancels exactly min(max(1, number of leading tracked
orders priced at or above the best bid), ladder length) orders from the top
and, provided that count is smaller than the ladder length and smaller than
the lowest tracked price in ticks, places exactly that many new orders at
the bottom, one tick below the previous lowest price and descending one
tick each; on a sorted ladder the leading-run count equals the number of
tracked orders priced at or above the best bid.  (The unrestricted claim is
false: when the count reaches the ladder length the anchor is re-derived
from the book, and placements stop at the zero price floor, see the
counterexample.) -/
theorem downshift_spec (t : TrackedMarket) (best : MarketBid) (brest : List MarketBid)
    (top low : TrackedOrder) (now nh : ℕ)
    (hP : t.orders.Pairwise priceDesc)
    (hN : (t.orders.map TrackedOrder.orderHash).Nodup)
    (hne : t.orders ≠ [])
    (hhead : t.orders.head? = some top)
    (hlast : t.orders.getLast? = some low)
    (htrig : best.price ≤ top.price
       ∨ depthAbove (best :: brest) top.price < VALUE_THRESHOLD)
    (hk : min (max 1 (countAtOrAbove t.orders best.price)) t.orders.length
       < t.orders.length)
    (hlow : min (max 1 (countAtOrAbove t.orders best.price)) t.orders.length < low.price) :
    (directionalShift t (best :: brest) now nh).cancelled =
        min (max 1 (countAtOrAbove t.orders best.price)) t.orders.length
    ∧ (directionalShift t (best :: brest) now nh).placed =
        min (max 1 (countAtOrAbove t.orders best.price)) t.orders.length
    ∧ (directionalShift t (best :: brest) now nh).market.orders =
        t.orders.drop (min (max 1 (countAtOrAbove t.orders best.price)) t.orders.length)
          ++ newBottoms (low.price - 1) 0
              (min (max 1 (countAtOrAbove t.orders best.price)) t.orders.length) nh
    ∧ (directionalShift t (best :: brest) now nh).market.cancelCount =
        t.cancelCount + min (max 1 (countAtOrAbove t.orders best.price)) t.orders.length
    ∧ countAtOrAbove t.orders best.price =
        t.orders.countP (fun o => decide (best.price ≤ o.price)) :=
  downshift_run t best brest top low now nh hP hN hne hhead hlast htrig hk hlow

/-- C2 counterexample: on the ladder 0.003/0.002/0.001 with best bid 0.002
the down-shift trigger holds and the rebalancer cancels two orders from the
top, but reopens zero (not two) orders at the bottom, because every
replacement price would be at or below 0.  The unrestricted claim that the
same number is always placed is therefore false on the code. -/
theorem downshift_floor_cex :
    ex321.cooldownUntil = 0
    ∧ (checkAndRebalance ex321 bids2 0 0).cancelled = 2
    ∧ (checkAndRebalance ex321 bids2 0 0).placed = 0 :=
  ⟨rfl, by decide, by decide⟩

theorem downshift_spec_witness :
    (directionalShift ex620 bids618b 0 0).cancelled = 3
    ∧ (directionalShift ex620 bids618b 0 0).placed = 3
    ∧ (directionalShift ex620 bids618b 0 0).market.orders =
        [⟨617, "d"⟩, ⟨616, "e"⟩] ++ newBottoms 615 0 3 0 := by
  have h := downshift_spec ex620 ⟨618, 300⟩ [] ⟨620, "a"⟩ ⟨616, "e"⟩ 0 0
    (by decide) (by decide) (by decide) (by decide) (by decide)
    (Or.inl (by decide)) (by decide) (by decide)
  exact ⟨h.1.trans (by decide), h.2.1.trans (by decide), h.2.2.1.trans (by decide)⟩

theorem validMovesFrom_le (bids : List MarketBid) (top : ℕ) :
    ∀ (b i : ℕ), validMovesFrom bids top i b ≤ b
  | 0, _ => le_refl 0
  | b + 1, i => by
      simp only [validMovesFrom]
      split
      · have := validMovesFrom_le bids top b (i + 1)
        omega
      · omega

theorem validMovesFrom_pass (bids : List MarketBid) (top : ℕ) :
    ∀ (b i j : ℕ), j < validMovesFrom bids top i b →
      VALUE_THRESHOLD ≤ depthAbove bids (top + (i + j))
  | 0, i, j => by
      intro h
      simp only [validMovesFrom] at h
      omega
  | b + 1, i, j => by
      intro hj
      by_cases hd : VALUE_THRESHOLD ≤ depthAbove bids (top + i)
      · have heq : validMovesFrom bids top i (b + 1) =
            1 + validMovesFrom bids top (i + 1) b := by
          simp only [validMovesFrom]
          rw [if_pos hd]
        rcases j with _ | j
        · simpa using hd
        · have hrec : j < validMovesFrom bids top (i + 1) b := by omega
          have hp := validMovesFrom_pass bids top b (i + 1) j hrec
          have he : top + (i + 1 + j) = top + (i + (j + 1)) := by omega
          rwa [he] at hp
      · have heq : validMovesFrom bids top i (b + 1) = 0 := by
          simp only [validMovesFrom]
          rw [if_neg hd]
        omega

theorem validMovesFrom_halt (bids : List MarketBid) (top : ℕ) :
    ∀ (b i : ℕ), validMovesFrom bids top i b < b →
      depthAbove bids (top + (i + validMovesFrom bids top i b)) < VALUE_THRESHOLD
  | 0, i => by
      intro h
      omega
  | b + 1, i => by
      intro hlt
      by_cases hd : VALUE_THRESHOLD ≤ depthAbove bids (top + i)
      · have heq : validMovesFrom bids top i (b + 1) =
            1 + validMovesFrom bids top (i + 1) b := by
          simp only [validMovesFrom]
          rw [if_pos hd]
        have hrec := validMovesFrom_halt bids top b (i + 1) (by omega)
        have he : top + (i + 1 + validMovesFrom bids top (i + 1) b)
            = top + (i + validMovesFrom bids top i (b + 1)) := by omega
        rwa [he] at hrec
      · have heq : validMovesFrom bids top i (b + 1) = 0 := by
          simp only [validMovesFrom]
          rw [if_neg hd]
        rw [heq]
        have hlt2 := lt_of_not_le hd
        simpa using hlt2

/-- Full description of one up-shift of the rebalancer, shared by the
claims about the directional shift and the ladder size. -/
theorem upshift_run (t : TrackedMarket) (best : MarketBid) (brest : List MarketBid)
    (top : TrackedOrder) (now nh : ℕ)
    (hP : t.orders.Pairwise priceDesc)
    (hN : (t.orders.map TrackedOrder.orderHash).Nodup)
    (hne : t.orders ≠ [])
    (hhead : t.orders.head? = some top)
    (hnd1 : top.price < best.price)
    (hnd2 : VALUE_THRESHOLD ≤ depthAbove (best :: brest) top.price)
    (hup : top.price + 1 < best.price) :
    (∀ j, 1 ≤ j →
        j ≤ validMoves (best :: brest) top.price
          (min (best.price - top.price) t.orders.length) →
        VALUE_THRESHOLD ≤ depthAbove (best :: brest) (top.price + j))
    ∧ (validMoves (best :: brest) top.price (min (best.price - top.price) t.orders.length)
          < min (best.price - top.price) t.orders.length →
        depthAbove (best :: brest)
          (top.price + (validMoves (best :: brest) top.price
            (min (best.price - top.price) t.orders.length) + 1)) < VALUE_THRESHOLD)
    ∧ validMoves (best :: brest) top.price (min (best.price - top.price) t.orders.length)
        ≤ min (best.price - top.price) t.orders.length
    ∧ (∀ v, v = validMoves (best :: brest) top.price
          (min (best.price - top.price) t.orders.length) →
        0 < v → v < t.orders.length → top.price + v < 1000 →
        (directionalShift t (best :: brest) now nh).cancelled = v
        ∧ (directionalShift t (best :: brest) now nh).placed = v
        ∧ (directionalShift t (best :: brest) now nh).market.orders =
            newTops top.price v nh ++ t.orders.take (t.orders.length - v)
        ∧ (directionalShift t (best :: brest) now nh).market.cancelCount =
            t.cancelCount + v) := by
  refine ⟨?_, ?_, ?_, ?_⟩
  · intro j h1 h2
    have hp := validMovesFrom_pass (best :: brest) top.price
      (min (best.price - top.price) t.orders.length) 1 (j - 1) (by
        unfold validMoves at h2
        omega)
    have he : top.price + (1 + (j - 1)) = top.price + j := by omega
    rwa [he] at hp
  · intro hlt
    have hh := validMovesFrom_halt (best :: brest) top.price
      (min (best.price - top.price) t.orders.length) 1 (by
        unfold validMoves at hlt
        exact hlt)
    have he : top.price + (1 + validMovesFrom (best :: brest) top.price 1
        (min (best.price - top.price) t.orders.length))
          = top.price + (validMoves (best :: brest) top.price
            (min (best.price - top.price) t.orders.length) + 1) := by
      unfold validMoves
      omega
    rwa [he] at hh
  · exact validMovesFrom_le (best :: brest) top.price _ 1
  · intro v hv hvpos hvlen hcap
    obtain ⟨orest, hol⟩ : ∃ orest, t.orders = top :: orest := by
      rcases ho : t.orders with _ | ⟨a, l⟩
      · rw [ho] at hhead
        cases hhead
      · rw [ho] at hhead
        rw [List.head?_cons, Option.some_inj] at hhead
        exact ⟨l, by rw [hhead]⟩
    have hlen1 : t.orders.length = orest.length + 1 := by
      rw [hol]
      rfl
    have hcb := cancelBottomOrders_spec t v now hN hvpos hne
    rw [Nat.min_eq_left (le_of_lt hvlen)] at hcb
    have htm : (incrementCancelCount { t with orders := t.orders.take (t.orders.length - v) }
        v now).orders = t.orders.take (t.orders.length - v) := by
      rw [incrementCancelCount_orders]
    have htl : (incrementCancelCount { t with orders := t.orders.take (t.orders.length - v) }
        v now).orders = top :: orest.take ((top :: orest).length - v - 1) := by
      rw [htm, hol]
      have hm : (top :: orest).length - v = ((top :: orest).length - v - 1) + 1 := by
        simp only [List.length_cons]
        omega
      rw [hm, List.take_succ_cons]
      simp
    have hPt : (incrementCancelCount { t with orders := t.orders.take (t.orders.length - v) }
        v now).orders.Pairwise priceDesc := by
      rw [htm]
      exact List.Pairwise.sublist (List.take_sublist _ _) hP
    have hpt := placeTop_spec v
      (incrementCancelCount { t with orders := t.orders.take (t.orders.length - v) } v now)
      top (orest.take ((top :: orest).length - v - 1)) nh htl hPt
    have hmint : min v (999 - top.price) = v := by omega
    rw [hmint] at hpt
    have hnotdown : ¬ (best.price ≤ top.price
        ∨ depthAbove (best :: brest) top.price < VALUE_THRESHOLD) := by
      push_neg
      exact ⟨hnd1, hnd2⟩
    have hv2 : validMoves (best :: brest) top.price
        (min (best.price - top.price) (top :: orest).length) = v := by
      rw [← hol]
      exact hv.symm
    have hred : directionalShift t (best :: brest) now nh =
        ⟨(placeTop (incrementCancelCount
            { t with orders := t.orders.take (t.orders.length - v) } v now) v nh).1,
         v,
         (placeTop (incrementCancelCount
            { t with orders := t.orders.take (t.orders.length - v) } v now) v nh).2.1,
         (placeTop (incrementCancelCount
            { t with orders := t.orders.take (t.orders.length - v) } v now) v nh).2.2⟩ := by
      simp only [directionalShift, hol]
      rw [if_neg hnotdown, if_pos hup, hv2, if_pos hvpos, hcb]
      rw [if_pos hvpos]
      rw [← hol]
    rw [hred, hpt]
    refine ⟨rfl, rfl, ?_, ?_⟩
    · show newTops top.price v nh ++ (incrementCancelCount
          { t with orders := t.orders.take (t.orders.length - v) } v now).orders = _
      rw [htm]
    · show (incrementCancelCount
          { t with orders := t.orders.take (t.orders.length - v) } v now).cancelCount = _
      rw [incrementCancelCount_cancelCount]

/-- C3 (amended): for a non-empty strictly descending ladder with distinct
hashes, an up-shift can run only when the best bid is more than one tick
above the highest tracked price while the down-shift trigger is off; the
scan count validMoves is at most min(gap, ladder length), every step 1..v
it accepts has at least 500 of bid value above top + step, and the first
failing step halts it; and whenever the count v is positive, smaller than
the ladder length, and keeps the new top below 1, exactly v orders are
cancelled from the bottom and exactly v new orders are placed one tick
above the previous top, ascending one tick per placement.  (The
unrestricted claim is false: when v equals the ladder length the
cancellation empties the ladder and zero orders are placed, see the
counterexample.) -/
theorem upshift_spec (t : TrackedMarket) (best : MarketBid) (brest : List MarketBid)
    (top : TrackedOrder) (now nh : ℕ)
    (hP : t.orders.Pairwise priceDesc)
    (hN : (t.orders.map TrackedOrder.orderHash).Nodup)
    (hne : t.orders ≠ [])
    (hhead : t.orders.head? = some top)
    (hnd1 : top.price < best.price)
    (hnd2 : VALUE_THRESHOLD ≤ depthAbove (best :: brest) top.price)
    (hup : top.price + 1 < best.price) :
    (∀ j, 1 ≤ j →
        j ≤ validMoves (best :: brest) top.price
          (min (best.price - top.price) t.orders.length) →
        VALUE_THRESHOLD ≤ depthAbove (best :: brest) (top.price + j))
    ∧ (validMoves (best :: brest) top.price (min (best.price - top.price) t.orders.length)
          < min (best.price - top.price) t.orders.length →
        depthAbove (best :: brest)
          (top.price + (validMoves (best :: brest) top.price
            (min (best.price - top.price) t.orders.length) + 1)) < VALUE_THRESHOLD)
    ∧ validMoves (best :: brest) top.price (min (best.price - top.price) t.orders.length)
        ≤ min (best.price - top.price) t.orders.length
    ∧ (∀ v, v = validMoves (best :: brest) top.price
          (min (best.price - top.price) t.orders.length) →
        0 < v → v < t.orders.length → top.price + v < 1000 →
        (directionalShift t (best :: brest) now nh).cancelled = v
        ∧ (directionalShift t (best :: brest) now nh).placed = v
        ∧ (directionalShift t (best :: brest) now nh).market.orders =
            newTops top.price v nh ++ t.orders.take (t.orders.length - v)
        ∧ (directionalShift t (best :: brest) now nh).market.cancelCount =
            t.cancelCount + v) :=
  upshift_run t best brest top now nh hP hN hne hhead hnd1 hnd2 hup

/-- C3 counterexample: on the ladder 0.600 … 0.596 with best bid 0.610 and
600 USD of depth above every candidate level, the scan validates 5 moves
(the full ladder), all five orders are cancelled from the bottom, the
ladder empties, and openTopOrders then places zero (not five) orders.  The
unrestricted claim that the same number is placed at the top is therefore
false on the code. -/
theorem upshift_empty_cex :
    (checkAndRebalance ex600 bids610 0 0).cancelled = 5
    ∧ (checkAndRebalance ex600 bids610 0 0).placed = 0
    ∧ (checkAndRebalance ex600 bids610 0 0).market.orders = [] :=
  ⟨by decide, by decide, by decide⟩

theorem upshift_spec_witness :
    (directionalShift ex600 bids604 0 0).cancelled = 2
    ∧ (directionalShift ex600 bids604 0 0).placed = 2
    ∧ (directionalShift ex600 bids604 0 0).market.orders =
        newTops 600 2 0 ++ ex600.orders.take 3 := by
  have h := upshift_spec ex600 ⟨604, 300⟩ [⟨603, 300⟩] ⟨600, "a"⟩ 0 0
    (by decide) (by decide) (by decide) (by decide) (by decide) (by decide) (by decide)
  have h4 := h.2.2.2 2 (by decide) (by decide) (by decide) (by decide)
  exact ⟨h4.1, h4.2.1, h4.2.2.1⟩

theorem takeWhile_lt_range : ∀ (n m : ℕ),
    (List.range n).takeWhile (fun i => decide (i < m)) = List.range (min n m)
  | 0, m => by simp
  | n + 1, 0 => by
      rw [List.range_succ_eq_map, List.takeWhile_cons]
      simp
  | n + 1, m + 1 => by
      rw [List.range_succ_eq_map, List.takeWhile_cons]
      rw [if_pos (by simp)]
      rw [List.takeWhile_map]
      have hpe : ((fun i => decide (i < m + 1)) ∘ Nat.succ) = (fun i => decide (i < m)) := by
        funext i
        simp [Nat.succ_lt_succ_iff]
      rw [hpe, takeWhile_lt_range n m]
      rw [← List.range_succ_eq_map, Nat.succ_min_succ]

theorem findStartGo_none : ∀ (l : List MarketBid) (acc : ℤ) (i : ℕ),
    findStartGo l acc i = none → ∀ j < l.length,
      acc + ((l.take (j + 1)).map MarketBid.value).sum ≤ VALUE_THRESHOLD
  | [], _, _ => by
      intro _ j hj
      simp at hj
  | b :: rest, acc, i => by
      intro h j hj
      simp only [findStartGo] at h
      by_cases hc : VALUE_THRESHOLD < acc + b.value
      · rw [if_pos hc] at h
        cases h
      · rw [if_neg hc] at h
        rcases j with _ | j
        · simp only [List.take_succ_cons, List.take_zero, List.map_cons, List.map_nil,
            List.sum_cons, List.sum_nil, add_zero]
          omega
        · have ih := findStartGo_none rest (acc + b.value) (i + 1) h j
            (by simpa using hj)
          simp only [List.take_succ_cons, List.map_cons, List.sum_cons]
          omega

theorem findStartGo_some : ∀ (l : List MarketBid) (acc : ℤ) (i k : ℕ) (p : ℕ),
    findStartGo l acc i = some (k, p) →
      ∃ j, k = i + j ∧ j < l.length
        ∧ (∃ b, l[j]? = some b ∧ b.price = p)
        ∧ VALUE_THRESHOLD < acc + ((l.take (j + 1)).map MarketBid.value).sum
        ∧ ∀ m < j, acc + ((l.take (m + 1)).map MarketBid.value).sum ≤ VALUE_THRESHOLD
  | [], _, _, _, _ => by
      intro h
      cases h
  | b :: rest, acc, i, k, p => by
      intro h
      simp only [findStartGo] at h
      by_cases hc : VALUE_THRESHOLD < acc + b.value
      · rw [if_pos hc] at h
        rw [Option.some_inj, Prod.mk.injEq] at h
        refine ⟨0, by omega, by simp, ⟨b, by simp, h.2⟩, ?_, by omega⟩
        simp only [List.take_succ_cons, List.take_zero, List.map_cons, List.map_nil,
          List.sum_cons, List.sum_nil, add_zero]
        exact hc
      · rw [if_neg hc] at h
        obtain ⟨j, hk, hjl, hb, hthr, hall⟩ := findStartGo_some rest (acc + b.value) (i + 1) k p h
        refine ⟨j + 1, by omega, by simpa using hjl, by simpa using hb, ?_, ?_⟩
        · simp only [List.take_succ_cons, List.map_cons, List.sum_cons]
          omega
        · intro m hm
          rcases m with _ | m
          · simp only [List.take_succ_cons, List.take_zero, List.map_cons, List.map_nil,
              List.sum_cons, List.sum_nil, add_zero]
            omega
          · have := hall m (by omega)
            simp only [List.take_succ_cons, List.map_cons, List.sum_cons]
            omega

/-- C6: the ladder initializer.  If no prefix of the first 6 bids
accumulates strictly more than the 500 USD threshold, no target price is
emitted; otherwise, with k the smallest index whose running sum first
exceeds the threshold and p the bid price there, the emitted prices start
one tick below p and descend one tick each, min(5, 6 - k) of them, cut off
before reaching 0; and the output is always strictly decreasing, positive
and at most 5 long (tick alignment is the price representation itself). -/
theorem ladder_initializer_spec (bids : List MarketBid) :
    (findStart bids = none →
      targetPrices bids = []
      ∧ ∀ j < min bids.length 6,
          ((bids.take (j + 1)).map MarketBid.value).sum ≤ VALUE_THRESHOLD)
    ∧ (∀ k p, findStart bids = some (k, p) →
        k < min bids.length 6
        ∧ (∃ b, bids[k]? = some b ∧ b.price = p)
        ∧ VALUE_THRESHOLD < ((bids.take (k + 1)).map MarketBid.value).sum
        ∧ (∀ m < k, ((bids.take (m + 1)).map MarketBid.value).sum ≤ VALUE_THRESHOLD)
        ∧ targetPrices bids =
            (List.range (min (min 5 (6 - k)) (p - 1))).map (fun i => p - 1 - i))
    ∧ (targetPrices bids).Pairwise (fun a b => b < a)
    ∧ (∀ q ∈ targetPrices bids, 0 < q)
    ∧ (targetPrices bids).length ≤ 5 := by
  have hlen6 : (bids.take 6).length = min 6 bids.length := List.length_take 6 bids
  have hform : ∀ k p, findStart bids = some (k, p) →
      targetPrices bids =
        (List.range (min (min 5 (6 - k)) (p - 1))).map (fun i => p - 1 - i) := by
    intro k p hf
    simp only [targetPrices, hf]
    rw [takeWhile_lt_range]
  refine ⟨?_, ?_, ?_, ?_, ?_⟩
  · intro hf
    constructor
    · simp only [targetPrices, hf]
    · intro j hj
      have hn := findStartGo_none (bids.take 6) 0 0 hf j (by omega)
      rw [List.take_take] at hn
      rw [Nat.min_eq_left (by omega : j + 1 ≤ 6)] at hn
      omega
  · intro k p hf
    obtain ⟨j, hk, hjl, ⟨b, hget, hbp⟩, hthr, hall⟩ := findStartGo_some (bids.take 6) 0 0 k p hf
    rw [Nat.zero_add] at hk
    rw [hlen6] at hjl
    rw [hk]
    have hfm := hform k p hf
    rw [hk] at hfm
    have hjlt : j < min bids.length 6 := by omega
    refine ⟨hjlt, ⟨b, ?_, hbp⟩, ?_, ?_, hfm⟩
    · rw [← hget]
      exact (List.getElem?_take_of_lt (by omega)).symm
    · have := hthr
      rw [List.take_take, Nat.min_eq_left (by omega : j + 1 ≤ 6)] at this
      omega
    · intro m hm
      have := hall m hm
      rw [List.take_take, Nat.min_eq_left (by omega : m + 1 ≤ 6)] at this
      omega
  · rcases hf : findStart bids with _ | kp
    · simp only [targetPrices, hf]
      exact List.Pairwise.nil
    · rw [hform kp.1 kp.2 (by rw [hf])]
      rw [List.pairwise_map]
      refine List.Pairwise.imp_of_mem ?_ (List.pairwise_lt_range _)
      intro a c ha hc hlt
      have hca := List.mem_range.mp hc
      omega
  · rcases hf : findStart bids with _ | kp
    · simp only [targetPrices, hf]
      intro q hq
      cases hq
    · rw [hform kp.1 kp.2 (by rw [hf])]
      intro q hq
      rcases List.mem_map.mp hq with ⟨a, ha, rfl⟩
      have := List.mem_range.mp ha
      omega
  · rcases hf : findStart bids with _ | kp
    · simp only [targetPrices, hf]
      simp
    · rw [hform kp.1 kp.2 (by rw [hf])]
      rw [List.length_map, List.length_range]
      omega

theorem ladder_initializer_spec_witness :
    targetPrices bids6 =
      (List.range (min (min 5 (6 - 1)) (699 - 1))).map (fun i => 699 - 1 - i)
    ∧ VALUE_THRESHOLD < ((bids6.take (1 + 1)).map MarketBid.value).sum
    ∧ (∀ m < 1, ((bids6.take (m + 1)).map MarketBid.value).sum ≤ VALUE_THRESHOLD) := by
  have h := (ladder_initializer_spec bids6).2.1 1 699 (by decide)
  exact ⟨h.2.2.2.2, h.2.2.1, h.2.2.2.1⟩

theorem placeBottom_length : ∀ (c : ℕ) (t : TrackedMarket) (start i nh : ℕ),
    (placeBottom t start c i nh).1.orders.length =
      t.orders.length + (placeBottom t start c i nh).2.1
    ∧ (placeBottom t start c i nh).2.1 ≤ c
  | 0, _, _, _, _ => ⟨rfl, le_refl 0⟩
  | c + 1, t, start, i, nh => by
      by_cases h0 : start - i = 0
      · simp only [placeBottom, if_pos h0]
        omega
      · obtain ⟨ih1, ih2⟩ := placeBottom_length c
          { t with orders := sortOrdersDesc (t.orders ++
              [{ price := start - i, orderHash := freshHash nh }]) } start (i + 1) (nh + 1)
        have h2 : ({ t with orders := sortOrdersDesc (t.orders ++
            [{ price := start - i, orderHash := freshHash nh }]) } :
              TrackedMarket).orders.length = t.orders.length + 1 := by
          show (sortOrdersDesc _).length = _
          simp only [sortOrdersDesc]
          rw [(List.perm_insertionSort ordDesc _).length_eq, List.length_append]
          rfl
        simp only [placeBottom, if_neg h0]
        omega

theorem placeTop_length : ∀ (c : ℕ) (t : TrackedMarket) (nh : ℕ),
    (placeTop t c nh).1.orders.length = t.orders.length + (placeTop t c nh).2.1
    ∧ (placeTop t c nh).2.1 ≤ c
  | 0, _, _ => ⟨rfl, le_refl 0⟩
  | c + 1, t, nh => by
      rcases ho : t.orders with _ | ⟨top, rest⟩
      · simp only [placeTop, ho]
        omega
      · by_cases hcap : 1000 ≤ top.price + 1
        · simp only [placeTop, ho, if_pos hcap]
          omega
        · obtain ⟨ih1, ih2⟩ := placeTop_length c { t with orders := sortOrdersDesc ({ price := top.price + 1, orderHash := freshHash nh } :: t.orders) } (nh + 1)
          have h2 : ({ t with orders := sortOrdersDesc ({ price := top.price + 1, orderHash := freshHash nh } :: t.orders) } : TrackedMarket).orders.length = t.orders.length + 1 := by
            show (sortOrdersDesc _).length = _
            simp only [sortOrdersDesc]
            rw [(List.perm_insertionSort ordDesc _).length_eq]
            rfl
          simp only [placeTop, ho, if_neg hcap]
          rw [ho] at ih1 ih2 h2
          omega

theorem openBottomOrders_length (t : TrackedMarket) (c : ℕ) (bids : List MarketBid) (nh : ℕ) :
    ((openBottomOrders t c bids nh).1).orders.length =
      t.orders.length + (openBottomOrders t c bids nh).2.1
    ∧ (openBottomOrders t c bids nh).2.1 ≤ c := by
  unfold openBottomOrders
  rcases hl : t.orders.getLast? with _ | lowest
  · rcases hf : findStart bids with _ | kp
    · dsimp only
      exact ⟨by omega, by omega⟩
    · dsimp only
      exact placeBottom_length c t (kp.2 - 1) 0 nh
  · dsimp only
    exact placeBottom_length c t (lowest.price - 1) 0 nh

theorem cancelTopOrders_keep_le (t : TrackedMarket) (k now : ℕ) :
    ((cancelTopOrders t k true now).1).orders.length
      ≤ t.orders.length - min k t.orders.length := by
  simp only [cancelTopOrders]
  split
  · next hemp =>
      have hnil : t.orders.take k = [] := List.isEmpty_iff.mp hemp
      have hlen := congrArg List.length hnil
      rw [List.length_take] at hlen
      simp only [List.length_nil] at hlen
      show t.orders.length ≤ _
      omega
  · next hemp =>
      rw [if_pos trivial]
      show ((incrementCancelCount _ _ _).orders).length ≤ _
      rw [incrementCancelCount_orders]
      show (List.filter _ t.orders).length ≤ _
      have key : ∀ (p : TrackedOrder → Bool),
          ((t.orders.take k).filter p = []) →
          (t.orders.filter p).length ≤ t.orders.length - min k t.orders.length := by
        intro p hp
        have hsplit : t.orders.filter p
            = (t.orders.take k).filter p ++ (t.orders.drop k).filter p := by
          rw [← List.filter_append, List.take_append_drop]
        rw [hsplit, hp, List.nil_append]
        have h2 := List.length_filter_le p (t.orders.drop k)
        rw [List.length_drop] at h2
        omega
      apply key
      apply List.filter_eq_nil_iff.mpr
      intro a ha
      have hmm : a.orderHash ∈ ((t.orders.take k).map TrackedOrder.orderHash).dedup :=
        List.mem_dedup.mpr (List.mem_map.mpr ⟨a, ha, rfl⟩)
      simpa using hmm

theorem cancelBottomOrders_keep_le (t : TrackedMarket) (k now : ℕ) :
    ((cancelBottomOrders t k true now).1).orders.length
      ≤ t.orders.length - min k t.orders.length := by
  simp only [cancelBottomOrders]
  split
  · next hemp =>
      have hnil : t.orders.reverse.take k = [] := List.isEmpty_iff.mp hemp
      have hlen := congrArg List.length hnil
      rw [List.length_take, List.length_reverse] at hlen
      simp only [List.length_nil] at hlen
      show t.orders.length ≤ _
      omega
  · next hemp =>
      rw [if_pos trivial]
      show ((incrementCancelCount _ _ _).orders).length ≤ _
      rw [incrementCancelCount_orders]
      show (List.filter _ t.orders).length ≤ _
      have key : ∀ (p : TrackedOrder → Bool),
          ((t.orders.drop (t.orders.length - k)).filter p = []) →
          (t.orders.filter p).length ≤ t.orders.length - min k t.orders.length := by
        intro p hp
        have hsplit : t.orders.filter p
            = (t.orders.take (t.orders.length - k)).filter p
              ++ (t.orders.drop (t.orders.length - k)).filter p := by
          rw [← List.filter_append, List.take_append_drop]
        rw [hsplit, hp, List.append_nil]
        have h2 := List.length_filter_le p (t.orders.take (t.orders.length - k))
        rw [List.length_take] at h2
        omega
      apply key
      apply List.filter_eq_nil_iff.mpr
      intro a ha
      have har : a ∈ t.orders.reverse.take k := by
        rw [List.take_reverse, List.mem_reverse]
        exact ha
      have hmm : a.orderHash ∈ ((t.orders.reverse.take k).map TrackedOrder.orderHash).dedup :=
        List.mem_dedup.mpr (List.mem_map.mpr ⟨a, har, rfl⟩)
      simpa using hmm

theorem cancelTopOrders_count_le (t : TrackedMarket) (k now : ℕ) (ok : Bool) :
    (cancelTopOrders t k ok now).2 ≤ min k t.orders.length := by
  simp only [cancelTopOrders]
  split
  · exact Nat.zero_le _
  · split
    · show (((t.orders.take k).map TrackedOrder.orderHash).dedup).length ≤ _
      have h1 := List.Sublist.length_le
        (List.dedup_sublist ((t.orders.take k).map TrackedOrder.orderHash))
      rw [List.length_map, List.length_take] at h1
      exact h1
    · exact Nat.zero_le _

theorem cancelBottomOrders_count_le (t : TrackedMarket) (k now : ℕ) (ok : Bool) :
    (cancelBottomOrders t k ok now).2 ≤ min k t.orders.length := by
  simp only [cancelBottomOrders]
  split
  · exact Nat.zero_le _
  · split
    · show (((t.orders.reverse.take k).map TrackedOrder.orderHash).dedup).length ≤ _
      have h1 := List.Sublist.length_le
        (List.dedup_sublist ((t.orders.reverse.take k).map TrackedOrder.orderHash))
      rw [List.length_map, List.length_take, List.length_reverse] at h1
      exact h1
    · exact Nat.zero_le _

theorem directionalShift_length_le (t : TrackedMarket) (bids : List MarketBid) (now nh : ℕ) :
    ((directionalShift t bids now nh).market).orders.length ≤ t.orders.length := by
  rcases bids with _ | ⟨best, brest⟩
  · exact le_refl _
  · rcases ho : t.orders with _ | ⟨top, orest⟩
    · simp only [directionalShift, ho]
      exact le_refl _
    · have hlen : t.orders.length = (top :: orest).length := by rw [ho]
      simp only [directionalShift, ho]
      by_cases hdown : best.price ≤ top.price
          ∨ depthAbove (best :: brest) top.price < VALUE_THRESHOLD
      · rw [if_pos hdown]
        have h1 := cancelTopOrders_keep_le t
          (min (max 1 (countAtOrAbove (top :: orest) best.price)) (top :: orest).length) now
        have h2 := cancelTopOrders_count_le t
          (min (max 1 (countAtOrAbove (top :: orest) best.price)) (top :: orest).length) now true
        have h3 := openBottomOrders_length
          (cancelTopOrders t
            (min (max 1 (countAtOrAbove (top :: orest) best.price)) (top :: orest).length)
            true now).1
          (cancelTopOrders t
            (min (max 1 (countAtOrAbove (top :: orest) best.price)) (top :: orest).length)
            true now).2
          (best :: brest) nh
        split
        · show ((openBottomOrders _ _ (best :: brest) nh).1).orders.length ≤ _
          omega
        · show ((cancelTopOrders t _ true now).1).orders.length ≤ _
          omega
      · rw [if_neg hdown]
        by_cases hup : top.price + 1 < best.price
        · rw [if_pos hup]
          by_cases hv : 0 < validMoves (best :: brest) top.price
              (min (best.price - top.price) (top :: orest).length)
          · rw [if_pos hv]
            have h1 := cancelBottomOrders_keep_le t
              (validMoves (best :: brest) top.price
                (min (best.price - top.price) (top :: orest).length)) now
            have h2 := cancelBottomOrders_count_le t
              (validMoves (best :: brest) top.price
                (min (best.price - top.price) (top :: orest).length)) now true
            have h3 := placeTop_length
              (cancelBottomOrders t
                (validMoves (best :: brest) top.price
                  (min (best.price - top.price) (top :: orest).length)) true now).2
              (cancelBottomOrders t
                (validMoves (best :: brest) top.price
                  (min (best.price - top.price) (top :: orest).length)) true now).1
              nh
            split
            · show ((placeTop _ _ nh).1).orders.length ≤ _
              omega
            · show ((cancelBottomOrders t _ true now).1).orders.length ≤ _
              omega
          · rw [if_neg hv]
            show t.orders.length ≤ _
            omega
        · rw [if_neg hup]
          show t.orders.length ≤ _
          omega

theorem trim_keep_le (t : TrackedMarket) (now : ℕ) :
    ((if 5 < t.orders.length then cancelBottomOrders t (t.orders.length - 5) true now
      else (t, 0)).1).orders.length ≤ 5 := by
  split
  · next h =>
      have h1 := cancelBottomOrders_keep_le t (t.orders.length - 5) now
      omega
  · next h =>
      show t.orders.length ≤ 5
      omega

theorem rebalanceBody_length_le (t : TrackedMarket) (bids : List MarketBid) (now nh : ℕ) :
    ((rebalanceBody t bids now nh).market).orders.length ≤ 5 := by
  have htc := trim_keep_le t now
  simp only [rebalanceBody]
  generalize hg : (if 5 < t.orders.length
      then cancelBottomOrders t (t.orders.length - 5) true now else (t, 0)) = tc
  rw [hg] at htc
  split
  · exact htc
  · generalize hg2 : (if tc.1.orders.length < 5
        then openBottomOrders tc.1 (5 - tc.1.orders.length) bids nh
        else (tc.1, 0, nh)) = tp
    have htp : tp.1.orders.length ≤ 5 := by
      rw [← hg2]
      split
      · next h5 =>
          have h1 := openBottomOrders_length tc.1 (5 - tc.1.orders.length) bids nh
          omega
      · exact htc
    split
    · exact htp
    · show ((directionalShift tp.1 bids now tp.2.2).market).orders.length ≤ 5
      exact le_trans (directionalShift_length_le tp.1 bids now tp.2.2) htp

theorem checkAndRebalance_length_le (t : TrackedMarket) (bids : List MarketBid)
    (now nh : ℕ) :
    ((checkAndRebalance t bids now nh).market).orders.length ≤ 5 := by
  simp only [checkAndRebalance]
  split
  · split
    · exact rebalanceBody_length_le _ bids now nh
    · split
      · next hemp =>
          show t.orders.length ≤ 5
          have hnil : t.orders = [] := List.isEmpty_iff.mp hemp
          rw [hnil]
          exact Nat.zero_le 5
      · show ((cancelBottomOrders t t.orders.length true now).1).orders.length ≤ 5
        have h1 := cancelBottomOrders_keep_le t t.orders.length now
        omega
  · exact rebalanceBody_length_le t bids now nh

theorem newBottoms_length (start i n nh : ℕ) : (newBottoms start i n nh).length = n := by
  unfold newBottoms
  rw [List.length_map, List.length_range]

theorem newTops_length (p n nh : ℕ) : (newTops p n nh).length = n := by
  unfold newTops
  rw [List.length_map, List.length_range]

theorem depthAbove_self (best : MarketBid) (brest : List MarketBid) :
    depthAbove (best :: brest) best.price = 0 := by
  unfold depthAbove
  rw [List.takeWhile_cons, if_neg (by simp)]
  rfl

theorem checkAndRebalance_stable_reduce (t : TrackedMarket) (best : MarketBid)
    (brest : List MarketBid) (now nh : ℕ)
    (hc0 : t.cooldownUntil = 0) (hlen5 : t.orders.length = 5) :
    checkAndRebalance t (best :: brest) now nh =
      ⟨(directionalShift t (best :: brest) now nh).market,
       0 + (directionalShift t (best :: brest) now nh).cancelled,
       0 + (directionalShift t (best :: brest) now nh).placed,
       (directionalShift t (best :: brest) now nh).nextHash⟩ := by
  have hemp : t.orders.isEmpty = false := by
    rcases ho : t.orders with _ | ⟨a, l⟩
    · rw [ho] at hlen5
      cases hlen5
    · rfl
  simp only [checkAndRebalance]
  rw [if_neg (by omega : ¬ 0 < t.cooldownUntil)]
  simp only [rebalanceBody]
  rw [if_neg (by omega : ¬ 5 < t.orders.length)]
  dsimp only
  rw [if_neg (by simp : ¬ ((best :: brest).isEmpty = true))]
  rw [if_neg (by omega : ¬ t.orders.length < 5)]
  dsimp only
  rw [hemp]
  rw [if_neg (by simp : ¬ (false = true))]

theorem checkAndRebalance_stable_five (t : TrackedMarket) (best : MarketBid)
    (brest : List MarketBid) (top low : TrackedOrder) (now nh : ℕ)
    (hP : t.orders.Pairwise priceDesc)
    (hN : (t.orders.map TrackedOrder.orderHash).Nodup)
    (hc0 : t.cooldownUntil = 0)
    (hlen5 : t.orders.length = 5)
    (hhead : t.orders.head? = some top)
    (hlast : t.orders.getLast? = some low)
    (hlow5 : 5 ≤ low.price)
    (hlowb : low.price < best.price)
    (hbcap : best.price ≤ top.price + 5)
    (htcap : top.price ≤ 995) :
    ((checkAndRebalance t (best :: brest) now nh).market).orders.length = 5 := by
  have hne : t.orders ≠ [] := by
    intro h
    rw [h] at hlen5
    cases hlen5
  have hmemlow : low ∈ t.orders := List.mem_of_mem_getLast? hlast
  have hcnt : countAtOrAbove t.orders best.price < t.orders.length := by
    rw [countAtOrAbove_eq_countP hP]
    rcases lt_or_eq_of_le (List.countP_le_length
        (p := fun o => decide (best.price ≤ o.price)) (l := t.orders)) with h | h
    · exact h
    · exfalso
      have hall := List.countP_eq_length.mp h low hmemlow
      simp only [decide_eq_true_eq] at hall
      omega
  rw [checkAndRebalance_stable_reduce t best brest now nh hc0 hlen5]
  show ((directionalShift t (best :: brest) now nh).market).orders.length = 5
  by_cases hdown : best.price ≤ top.price
      ∨ depthAbove (best :: brest) top.price < VALUE_THRESHOLD
  · have hk : min (max 1 (countAtOrAbove t.orders best.price)) t.orders.length
        < t.orders.length := by omega
    have hlow : min (max 1 (countAtOrAbove t.orders best.price)) t.orders.length
        < low.price := by omega
    obtain ⟨-, -, hord, -, -⟩ :=
      downshift_run t best brest top low now nh hP hN hne hhead hlast hdown hk hlow
    rw [hord, List.length_append, List.length_drop, newBottoms_length]
    omega
  · have hnd1 : top.price < best.price := by
      rcases Nat.lt_or_ge top.price best.price with h | h
      · exact h
      · exact absurd (Or.inl h) hdown
    have hnd2 : VALUE_THRESHOLD ≤ depthAbove (best :: brest) top.price := by
      rcases le_or_lt VALUE_THRESHOLD (depthAbove (best :: brest) top.price) with h | h
      · exact h
      · exact absurd (Or.inr h) hdown
    obtain ⟨orest, hol⟩ : ∃ orest, t.orders = top :: orest := by
      rcases ho : t.orders with _ | ⟨a, l⟩
      · rw [ho] at hhead
        cases hhead
      · rw [ho] at hhead
        rw [List.head?_cons, Option.some_inj] at hhead
        exact ⟨l, by rw [hhead]⟩
    by_cases hup : top.price + 1 < best.price
    · obtain ⟨hpass, hhalt, hle, hrun⟩ :=
        upshift_run t best brest top now nh hP hN hne hhead hnd1 hnd2 hup
      by_cases hv : 0 < validMoves (best :: brest) top.price
          (min (best.price - top.price) t.orders.length)
      · have hv5 : validMoves (best :: brest) top.price
            (min (best.price - top.price) t.orders.length) < 5 := by
          by_contra hge
          push_neg at hge
          have hveq : validMoves (best :: brest) top.price
              (min (best.price - top.price) t.orders.length) = 5 := by omega
          have hgap : best.price - top.price = 5 := by omega
          have hbeq : best.price = top.price + 5 := by omega
          have hdep := hpass 5 (by omega) (by omega)
          rw [← hbeq] at hdep
          rw [depthAbove_self] at hdep
          have h500 : VALUE_THRESHOLD = 500 := rfl
          rw [h500] at hdep
          omega
        obtain ⟨-, -, hord, -⟩ := hrun
          (validMoves (best :: brest) top.price
            (min (best.price - top.price) t.orders.length)) rfl hv (by omega) (by omega)
        rw [hord, List.length_append, List.length_take, newTops_length]
        omega
      · have hvz : ¬ 0 < validMoves (best :: brest) top.price
            (min (best.price - top.price) (top :: orest).length) := by
          rw [← hol]
          exact hv
        have hds : directionalShift t (best :: brest) now nh = ⟨t, 0, 0, nh⟩ := by
          simp only [directionalShift, hol]
          rw [if_neg hdown, if_pos hup, if_neg hvz]
        rw [hds]
        show t.orders.length = 5
        exact hlen5
    · have hds : directionalShift t (best :: brest) now nh = ⟨t, 0, 0, nh⟩ := by
        simp only [directionalShift, hol]
        rw [if_neg hdown, if_neg hup]
      rw [hds]
      show t.orders.length = 5
      exact hlen5

/-- C4: the ladder-size discipline of checkAndRebalance.  Every full
rebalancer pass (trim, refill, directional shift, including both cooldown
branches) ends with at most 5 tracked orders; and in the stable regime - a
sorted ladder of 5 distinct orders, no pending cooldown, lowest price at
least 0.005, best bid above the lowest price and at most 5 ticks above the
top, top at most 0.995 - the pass ends with exactly 5 tracked orders. -/
theorem ladder_size_spec :
    (∀ (t : TrackedMarket) (bids : List MarketBid) (now nh : ℕ),
      ((checkAndRebalance t bids now nh).market).orders.length ≤ 5)
    ∧ (∀ (t : TrackedMarket) (best : MarketBid) (brest : List MarketBid)
        (top low : TrackedOrder) (now nh : ℕ),
        t.orders.Pairwise priceDesc →
        (t.orders.map TrackedOrder.orderHash).Nodup →
        t.cooldownUntil = 0 →
        t.orders.length = 5 →
        t.orders.head? = some top →
        t.orders.getLast? = some low →
        5 ≤ low.price →
        low.price < best.price →
        best.price ≤ top.price + 5 →
        top.price ≤ 995 →
        ((checkAndRebalance t (best :: brest) now nh).market).orders.length = 5) :=
  ⟨checkAndRebalance_length_le,
   fun t best brest top low now nh hP hN hc0 hlen5 hhead hlast hlow5 hlowb hbcap htcap =>
     checkAndRebalance_stable_five t best brest top low now nh
       hP hN hc0 hlen5 hhead hlast hlow5 hlowb hbcap htcap⟩

/-- Witness for the ladder-size claim: the stable ladder 0.620 .. 0.616
against a 600 USD best bid at 0.619 keeps exactly 5 orders. -/
theorem ladder_size_spec_witness :
    ((checkAndRebalance ex620 bids619 0 0).market).orders.length ≤ 5
    ∧ ((checkAndRebalance ex620 bids619 0 0).market).orders.length = 5 :=
  ⟨ladder_size_spec.1 ex620 bids619 0 0,
   ladder_size_spec.2 ex620 ⟨619, 600⟩ [] ⟨620, "a"⟩ ⟨616, "e"⟩ 0 0 (by decide) (by decide)
     rfl rfl rfl rfl (by decide) (by decide) (by decide) (by decide)⟩

/-- Counterexample to the unconditional exactly-5 reading: on ex5004 the
depth scan of the liquid book bids500 succeeds and hundreds of free tick
prices above 0 remain (0.004 .. 0.499), yet the pass ends with only 3
tracked orders, because refill and down-shift placement anchor strictly
below the current lowest tracked price, here 0.001. -/
theorem ladder_size_cex :
    findStart bids500 = some (0, 500)
    ∧ ((checkAndRebalance ex5004 bids500 0 0).market).orders.length = 3 :=
  ⟨rfl, rfl⟩

theorem syncMarket_self (t : TrackedMarket) (hP : t.orders.Pairwise priceDesc) :
    syncMarket t (apiOf t) = t := by
  have hfm : ordersForMarket (apiOf t) t.id = apiOf t := by
    apply List.filter_eq_self.mpr
    intro a ha
    unfold apiOf at ha
    rcases List.mem_map.mp ha with ⟨o, ho, rfl⟩
    simp
  have hmap : (apiOf t).map ApiOrder.hash = t.orders.map TrackedOrder.orderHash := by
    unfold apiOf
    rw [List.map_map]
    rfl
  have hnew : newTrackedOrders t (apiOf t) = [] := by
    unfold newTrackedOrders
    have hf : (apiOf t).filter
        (fun a => !((t.orders.map TrackedOrder.orderHash).contains a.hash)) = [] := by
      apply List.filter_eq_nil_iff.mpr
      intro a ha
      unfold apiOf at ha
      rcases List.mem_map.mp ha with ⟨o, ho, rfl⟩
      simp
      exact ⟨o, ho, rfl⟩
    rw [hf]
    rfl
  have hfil : t.orders.filter
      (fun o => ((apiOf t).map ApiOrder.hash).contains o.orderHash) = t.orders := by
    apply List.filter_eq_self.mpr
    intro a ha
    rw [hmap]
    exact List.elem_eq_true_of_mem (List.mem_map.mpr ⟨a, ha, rfl⟩)
  simp only [syncMarket]
  rw [hfm, hnew, List.append_nil, hfil, sortOrdersDesc_of_pairwise hP]

theorem checkAndRebalance_stable_noop (t : TrackedMarket) (best : MarketBid)
    (brest : List MarketBid) (top : TrackedOrder) (now nh : ℕ)
    (hc0 : t.cooldownUntil = 0)
    (hlen5 : t.orders.length = 5)
    (hhead : t.orders.head? = some top)
    (hnd1 : top.price < best.price)
    (hnd2 : VALUE_THRESHOLD ≤ depthAbove (best :: brest) top.price)
    (hstab : best.price ≤ top.price + 1) :
    checkAndRebalance t (best :: brest) now nh = ⟨t, 0, 0, nh⟩ := by
  obtain ⟨orest, hol⟩ : ∃ orest, t.orders = top :: orest := by
    rcases ho : t.orders with _ | ⟨a, l⟩
    · rw [ho] at hhead
      cases hhead
    · rw [ho] at hhead
      rw [List.head?_cons, Option.some_inj] at hhead
      exact ⟨l, by rw [hhead]⟩
  have hdown : ¬ (best.price ≤ top.price
      ∨ depthAbove (best :: brest) top.price < VALUE_THRESHOLD) := by
    intro h
    rcases h with h | h
    · omega
    · omega
  have hup : ¬ (top.price + 1 < best.price) := by omega
  have hds : directionalShift t (best :: brest) now nh = ⟨t, 0, 0, nh⟩ := by
    simp only [directionalShift, hol]
    rw [if_neg hdown, if_neg hup]
  rw [checkAndRebalance_stable_reduce t best brest now nh hc0 hlen5, hds]
  rfl

/-- C7: a tick is idempotent only on a stable state.  When the sorted
5-order ladder matches the gateway listing, no cooldown is pending, the
best bid is above the top by at most one tick and the depth above the top
is at least 500 USD, the tick leaves the market untouched with no
cancellations and no placements, and so does a second tick on its result
with the updated gateway listing and the same book. -/
theorem tick_idempotent (t : TrackedMarket) (best : MarketBid) (brest : List MarketBid)
    (top : TrackedOrder) (now now2 nh nh2 : ℕ)
    (hP : t.orders.Pairwise priceDesc)
    (hc0 : t.cooldownUntil = 0)
    (hlen5 : t.orders.length = 5)
    (hhead : t.orders.head? = some top)
    (hnd1 : top.price < best.price)
    (hnd2 : VALUE_THRESHOLD ≤ depthAbove (best :: brest) top.price)
    (hstab : best.price ≤ top.price + 1) :
    tick t (apiOf t) (best :: brest) now nh = ⟨t, 0, 0, nh⟩
    ∧ tick ((tick t (apiOf t) (best :: brest) now nh).market)
        (apiOf ((tick t (apiOf t) (best :: brest) now nh).market))
        (best :: brest) now2 nh2
        = ⟨t, 0, 0, nh2⟩ := by
  have h1 : tick t (apiOf t) (best :: brest) now nh = ⟨t, 0, 0, nh⟩ := by
    unfold tick
    rw [syncMarket_self t hP]
    exact checkAndRebalance_stable_noop t best brest top now nh hc0 hlen5 hhead hnd1 hnd2 hstab
  refine ⟨h1, ?_⟩
  rw [h1]
  show tick t (apiOf t) (best :: brest) now2 nh2 = ⟨t, 0, 0, nh2⟩
  unfold tick
  rw [syncMarket_self t hP]
  exact checkAndRebalance_stable_noop t best brest top now2 nh2 hc0 hlen5 hhead hnd1 hnd2 hstab

/-- Witness for the stable-tick claim: the ladder 0.620 .. 0.616 against a
600 USD best bid at 0.621 is left untouched by two consecutive ticks. -/
theorem tick_idempotent_witness :
    tick ex620 (apiOf ex620) bids621 0 0 = ⟨ex620, 0, 0, 0⟩
    ∧ tick ((tick ex620 (apiOf ex620) bids621 0 0).market)
        (apiOf ((tick ex620 (apiOf ex620) bids621 0 0).market)) bids621 1 7
        = ⟨ex620, 0, 0, 7⟩ :=
  tick_idempotent ex620 ⟨621, 600⟩ [] ⟨620, "a"⟩ 0 1 0 7 (by decide) rfl rfl rfl
    (by decide) (by decide) (by decide)

/-- Counterexample to the unconditional second-run claim: after a first
tick on the 0.620 .. 0.616 ladder against the thin book bids618 (100 USD at
0.618), a second tick with the gateway listing of the first result and the
unchanged book still cancels 1 order and places 1 order, because the depth
above the new top stays under 500 USD and retriggers the down-shift. -/
theorem tick_second_run_cex :
    (tick ((tick ex620 (apiOf ex620) bids618 0 0).market)
       (apiOf ((tick ex620 (apiOf ex620) bids618 0 0).market)) bids618 0
       ((tick ex620 (apiOf ex620) bids618 0 0).nextHash)).cancelled = 1
    ∧ (tick ((tick ex620 (apiOf ex620) bids618 0 0).market)
       (apiOf ((tick ex620 (apiOf ex620) bids618 0 0).market)) bids618 0
       ((tick ex620 (apiOf ex620) bids618 0 0).nextHash)).placed = 1 :=
  ⟨rfl, rfl⟩

theorem cancelOrdersGw_storage_mem (orders : List GatewayOrderData) (res : GroupResults)
    (storage : List String) (hne : orders ≠ []) (h : String) :
    h ∈ (cancelOrdersGw orders res storage).2 ↔
      h ∈ storage ∧ h ∉ successRemoved orders res := by
  have hemp : orders.isEmpty = false := by
    rcases orders with _ | ⟨a, l⟩
    · exact absurd rfl hne
    · rfl
  simp only [cancelOrdersGw, hemp, Bool.false_eq_true, if_false, successRemoved]
  cases hb1 : (!(groupRegular orders).isEmpty && res.regular)
  <;> cases hb2 : (!(groupNegRisk orders).isEmpty && res.negRisk)
  <;> cases hb3 : (!(groupRegularYB orders).isEmpty && res.regularYieldBearing)
  <;> cases hb4 : (!(groupNegRiskYB orders).isEmpty && res.negRiskYieldBearing)
  <;> simp [removeHashesFromStorage, List.mem_filter]
  <;> tauto

theorem cancelTopOrdersFull_storage (t : TrackedMarket) (k now : ℕ)
    (flags : String → Bool × Bool) (res : GroupResults) (storage : List String)
    (hk : 0 < k) (ho : t.orders ≠ []) :
    (cancelTopOrdersFull t k flags res storage now).2.2 =
      (cancelOrdersGw (gatewayData t k flags) res storage).2 := by
  have hne : (t.orders.take k).isEmpty = false := take_isEmpty_false hk ho
  simp only [cancelTopOrdersFull, hne, Bool.false_eq_true, if_false]
  split
  · rfl
  · rfl

theorem cancelTopOrdersFull_flag_true (t : TrackedMarket) (k now : ℕ)
    (flags : String → Bool × Bool) (res : GroupResults) (storage : List String)
    (hN : (t.orders.map TrackedOrder.orderHash).Nodup) (hk : 0 < k) (ho : t.orders ≠ [])
    (hflag : (cancelOrdersGw (gatewayData t k flags) res storage).1 = true) :
    (cancelTopOrdersFull t k flags res storage now).1.orders = t.orders.drop k
    ∧ (cancelTopOrdersFull t k flags res storage now).2.1 = min k t.orders.length := by
  have hne : (t.orders.take k).isEmpty = false := take_isEmpty_false hk ho
  have hflag2 : (cancelOrdersGw ((t.orders.take k).map (fun o =>
      { hash := o.orderHash, isNegRisk := (flags o.orderHash).1,
        isYieldBearing := (flags o.orderHash).2 : GatewayOrderData })) res storage).1
      = true := hflag
  have hodl : ((t.orders.take k).map (fun o =>
      { hash := o.orderHash, isNegRisk := (flags o.orderHash).1,
        isYieldBearing := (flags o.orderHash).2 : GatewayOrderData })).map
        GatewayOrderData.hash = (t.orders.take k).map TrackedOrder.orderHash := by
    rw [List.map_map]
    rfl
  have hNt : ((t.orders.take k).map TrackedOrder.orderHash).Nodup :=
    List.Nodup.sublist (List.Sublist.map _ (List.take_sublist _ _)) hN
  have hlen : (((t.orders.take k).map TrackedOrder.orderHash).dedup).length
      = min k t.orders.length := by
    rw [hNt.dedup, List.length_map, List.length_take]
  simp only [cancelTopOrdersFull, hne, Bool.false_eq_true, if_false, hflag2, if_true, hodl,
    filter_not_take_dedup t.orders k hN, hlen]
  constructor
  · show (incrementCancelCount _ _ _).orders = _
    rw [incrementCancelCount_orders]
  · trivial

theorem cancelTopOrdersFull_flag_false (t : TrackedMarket) (k now : ℕ)
    (flags : String → Bool × Bool) (res : GroupResults) (storage : List String)
    (hk : 0 < k) (ho : t.orders ≠ [])
    (hflag : (cancelOrdersGw (gatewayData t k flags) res storage).1 = false) :
    (cancelTopOrdersFull t k flags res storage now).1 = t
    ∧ (cancelTopOrdersFull t k flags res storage now).2.1 = 0 := by
  have hne : (t.orders.take k).isEmpty = false := take_isEmpty_false hk ho
  have hflag2 : (cancelOrdersGw ((t.orders.take k).map (fun o =>
      { hash := o.orderHash, isNegRisk := (flags o.orderHash).1,
        isYieldBearing := (flags o.orderHash).2 : GatewayOrderData })) res storage).1
      = false := hflag
  simp only [cancelTopOrdersFull, hne, Bool.false_eq_true, if_false, hflag2]
  trivial

/-- C8: grouped batch cancellation under partial sub-group success.  The
persistent store is updated per sub-group: a hash survives exactly when it
was stored before and is not in a nonempty sub-group that reported success.
The in-memory tracked list however is all-or-nothing: it loses exactly the
attempted orders when every nonempty sub-group succeeded, and is left
completely unchanged with a zero count when any nonempty sub-group failed,
so orders of a successful sub-group can be gone from storage yet remain
tracked in memory. -/
theorem cancel_partial_groups (t : TrackedMarket) (k now : ℕ)
    (flags : String → Bool × Bool) (res : GroupResults) (storage : List String)
    (hN : (t.orders.map TrackedOrder.orderHash).Nodup) (hk : 0 < k) (ho : t.orders ≠ []) :
    (∀ h, h ∈ (cancelTopOrdersFull t k flags res storage now).2.2 ↔
       h ∈ storage ∧ h ∉ successRemoved (gatewayData t k flags) res)
    ∧ ((cancelOrdersGw (gatewayData t k flags) res storage).1 = true →
        (cancelTopOrdersFull t k flags res storage now).1.orders = t.orders.drop k
        ∧ (cancelTopOrdersFull t k flags res storage now).2.1 = min k t.orders.length)
    ∧ ((cancelOrdersGw (gatewayData t k flags) res storage).1 = false →
        (cancelTopOrdersFull t k flags res storage now).1 = t
        ∧ (cancelTopOrdersFull t k flags res storage now).2.1 = 0) := by
  have hgne : gatewayData t k flags ≠ [] := by
    intro hnil
    have hlen := congrArg List.length hnil
    rw [gatewayData, List.length_map, List.length_take] at hlen
    simp only [List.length_nil] at hlen
    have hlp : 0 < t.orders.length := List.length_pos.mpr ho
    omega
  refine ⟨?_, ?_, ?_⟩
  · intro h
    rw [cancelTopOrdersFull_storage t k now flags res storage hk ho]
    exact cancelOrdersGw_storage_mem (gatewayData t k flags) res storage hgne h
  · intro hflag
    exact cancelTopOrdersFull_flag_true t k now flags res storage hN hk ho hflag
  · intro hflag
    exact cancelTopOrdersFull_flag_false t k now flags res storage hk ho hflag

/-- Witness for the grouped-cancellation claim on a concrete partial
failure: the regular sub-group hash a is dropped from storage while the
whole tracked list and counter stay untouched. -/
theorem cancel_partial_groups_witness :
    ("a" ∈ (cancelTopOrdersFull ex21 2 exFlags exPartial ["a", "b"] 0).2.2 ↔
       "a" ∈ ["a", "b"] ∧ "a" ∉ successRemoved (gatewayData ex21 2 exFlags) exPartial)
    ∧ (cancelTopOrdersFull ex21 2 exFlags exPartial ["a", "b"] 0).1 = ex21
    ∧ (cancelTopOrdersFull ex21 2 exFlags exPartial ["a", "b"] 0).2.1 = 0 :=
  ⟨(cancel_partial_groups ex21 2 0 exFlags exPartial ["a", "b"] (by decide) (by decide)
      (by decide)).1 "a",
   ((cancel_partial_groups ex21 2 0 exFlags exPartial ["a", "b"] (by decide) (by decide)
      (by decide)).2.2 (by decide)).1,
   ((cancel_partial_groups ex21 2 0 exFlags exPartial ["a", "b"] (by decide) (by decide)
      (by decide)).2.2 (by decide)).2⟩

/-- Counterexample to per-sub-group removal from in-memory tracking: on the
two-order market ex21 the regular sub-group (hash a) succeeds and is
deleted from storage, the negRisk sub-group (hash b) fails, and the tracked
list keeps both orders, a included. -/
theorem partial_cancel_cex :
    (cancelTopOrdersFull ex21 2 exFlags exPartial ["a", "b"] 0).1.orders =
      [⟨2, "a"⟩, ⟨1, "b"⟩]
    ∧ (cancelTopOrdersFull ex21 2 exFlags exPartial ["a", "b"] 0).2.2 = ["b"] :=
  ⟨rfl, rfl⟩

theorem OrdersInv_nil : OrdersInv [] :=
  ⟨List.Pairwise.nil, fun o ho => absurd ho (List.not_mem_nil o)⟩

theorem OrdersInv_sublist {l s : List TrackedOrder} (h : OrdersInv l) (hs : List.Sublist s l) :
    OrdersInv s :=
  ⟨List.Pairwise.sublist hs h.1, fun o ho => h.2 o (hs.subset ho)⟩

theorem cancelTopOrders_sublist (t : TrackedMarket) (k now : ℕ) (ok : Bool) :
    List.Sublist ((cancelTopOrders t k ok now).1).orders t.orders := by
  simp only [cancelTopOrders]
  split
  · exact List.Sublist.refl _
  · split
    · show List.Sublist ((incrementCancelCount _ _ _).orders) _
      rw [incrementCancelCount_orders]
      exact List.filter_sublist _
    · exact List.Sublist.refl _

theorem cancelBottomOrders_sublist (t : TrackedMarket) (k now : ℕ) (ok : Bool) :
    List.Sublist ((cancelBottomOrders t k ok now).1).orders t.orders := by
  simp only [cancelBottomOrders]
  split
  · exact List.Sublist.refl _
  · split
    · show List.Sublist ((incrementCancelCount _ _ _).orders) _
      rw [incrementCancelCount_orders]
      exact List.filter_sublist _
    · exact List.Sublist.refl _

theorem newBottoms_pairwise (start n nh : ℕ) (hn : n ≤ start) :
    (newBottoms start 0 n nh).Pairwise priceDesc := by
  unfold newBottoms
  rw [List.pairwise_map]
  refine List.Pairwise.imp_of_mem ?_ (List.pairwise_lt_range n)
  intro a b ha hb hlt
  have han : a < n := List.mem_range.mp ha
  have hbn : b < n := List.mem_range.mp hb
  show start - 0 - b < start - 0 - a
  omega

theorem newBottoms_mem_bounds (start n nh : ℕ) :
    ∀ o ∈ newBottoms start 0 n nh, start + 1 - n ≤ o.price ∧ o.price ≤ start := by
  intro o ho
  unfold newBottoms at ho
  rcases List.mem_map.mp ho with ⟨j, hj, rfl⟩
  have hjn : j < n := List.mem_range.mp hj
  constructor
  · show start + 1 - n ≤ start - 0 - j
    omega
  · show start - 0 - j ≤ start
    omega

theorem newTops_pairwise (p n nh : ℕ) : (newTops p n nh).Pairwise priceDesc := by
  unfold newTops
  rw [List.pairwise_map]
  refine List.Pairwise.imp_of_mem ?_ (List.pairwise_lt_range n)
  intro a b ha hb hlt
  have han : a < n := List.mem_range.mp ha
  have hbn : b < n := List.mem_range.mp hb
  show p + n - b < p + n - a
  omega

theorem newTops_mem_bounds (p n nh : ℕ) :
    ∀ o ∈ newTops p n nh, p + 1 ≤ o.price ∧ o.price ≤ p + n := by
  intro o ho
  unfold newTops at ho
  rcases List.mem_map.mp ho with ⟨j, hj, rfl⟩
  have hjn : j < n := List.mem_range.mp hj
  constructor
  · show p + 1 ≤ p + n - j
    omega
  · show p + n - j ≤ p + n
    omega

theorem OrdersInv_append {a b : List TrackedOrder} (ha : OrdersInv a) (hb : OrdersInv b)
    (hcross : ∀ x ∈ a, ∀ y ∈ b, y.price < x.price) : OrdersInv (a ++ b) := by
  refine ⟨?_, ?_⟩
  · rw [List.pairwise_append]
    exact ⟨ha.1, hb.1, fun x hx y hy => hcross x hx y hy⟩
  · intro o ho
    rcases List.mem_append.mp ho with h | h
    · exact ha.2 o h
    · exact hb.2 o h

theorem placeBottom_inv (t : TrackedMarket) (start c nh : ℕ)
    (hInv : OrdersInv t.orders) (hstart : start < 1000)
    (hgt : ∀ x ∈ t.orders, start < x.price) :
    OrdersInv ((placeBottom t start c 0 nh).1).orders := by
  rw [placeBottom_spec c t start 0 nh hInv.1 hgt]
  show OrdersInv (t.orders ++ newBottoms start 0 (min c (start - 0)) nh)
  refine OrdersInv_append hInv
    ⟨newBottoms_pairwise start _ nh (by omega), ?_⟩ ?_
  · intro o ho
    have hb := newBottoms_mem_bounds start (min c (start - 0)) nh o ho
    constructor
    · omega
    · omega
  · intro x hx y hy
    have hb := newBottoms_mem_bounds start (min c (start - 0)) nh y hy
    have hx2 := hgt x hx
    omega

theorem placeTop_inv (t : TrackedMarket) (c nh : ℕ) (hInv : OrdersInv t.orders) :
    OrdersInv ((placeTop t c nh).1).orders := by
  rcases ho : t.orders with _ | ⟨top, rest⟩
  · have hred : placeTop t c nh = (t, 0, nh) := by
      rcases c with _ | c
      · rfl
      · simp only [placeTop, ho]
    rw [hred]
    exact hInv
  · rw [placeTop_spec c t top rest nh ho hInv.1]
    show OrdersInv (newTops top.price (min c (999 - top.price)) nh ++ t.orders)
    have hP0 : (top :: rest).Pairwise priceDesc := ho ▸ hInv.1
    have htop : ∀ x ∈ t.orders, x.price ≤ top.price := by
      intro x hx
      rw [ho] at hx
      rcases List.mem_cons.mp hx with rfl | hx2
      · exact le_refl _
      · exact le_of_lt (List.rel_of_pairwise_cons hP0 hx2)
    have htp : top.price < 1000 := by
      refine (hInv.2 top ?_).2
      rw [ho]
      exact List.mem_cons_self _ _
    refine OrdersInv_append ⟨newTops_pairwise _ _ _, ?_⟩ hInv ?_
    · intro o hoo
      have hb := newTops_mem_bounds top.price (min c (999 - top.price)) nh o hoo
      constructor
      · omega
      · omega
    · intro x hx y hy
      have hb := newTops_mem_bounds top.price (min c (999 - top.price)) nh x hx
      have hyt : y.price ≤ top.price := htop y hy
      omega

theorem findStart_price_lt (bids : List MarketBid) (k p : ℕ)
    (hf : findStart bids = some (k, p)) (hbids : ∀ b ∈ bids, b.price < 1000) :
    p < 1000 := by
  obtain ⟨j, hk, hjl, ⟨b, hget, hbp⟩, hthr, hall⟩ := findStartGo_some (bids.take 6) 0 0 k p hf
  have hmem : b ∈ bids.take 6 := List.getElem?_mem hget
  have hmem2 : b ∈ bids := List.mem_of_mem_take hmem
  have := hbids b hmem2
  omega

theorem openBottomOrders_inv (t : TrackedMarket) (c : ℕ) (bids : List MarketBid) (nh : ℕ)
    (hInv : OrdersInv t.orders) (hbids : ∀ b ∈ bids, b.price < 1000) :
    OrdersInv ((openBottomOrders t c bids nh).1).orders := by
  unfold openBottomOrders
  rcases hl : t.orders.getLast? with _ | lowest
  · rcases hf : findStart bids with _ | kp
    · dsimp only
      exact hInv
    · dsimp only
      have hnil : t.orders = [] := List.getLast?_eq_none_iff.mp hl
      refine placeBottom_inv t (kp.2 - 1) c nh hInv ?_ ?_
      · have := findStart_price_lt bids kp.1 kp.2 (by rw [hf]) hbids
        omega
      · intro x hx
        rw [hnil] at hx
        cases hx
  · dsimp only
    have hmem : lowest ∈ t.orders := List.mem_of_mem_getLast? hl
    have hlow := getLast?_le_of_pairwise hl hInv.1
    refine placeBottom_inv t (lowest.price - 1) c nh hInv ?_ ?_
    · have := (hInv.2 lowest hmem).2
      omega
    · intro x hx
      have h1 := hlow x hx
      have h2 := (hInv.2 lowest hmem).1
      omega

theorem directionalShift_inv (t : TrackedMarket) (bids : List MarketBid) (now nh : ℕ)
    (hInv : OrdersInv t.orders) (hbids : ∀ b ∈ bids, b.price < 1000) :
    OrdersInv ((directionalShift t bids now nh).market).orders := by
  rcases bids with _ | ⟨best, brest⟩
  · exact hInv
  · rcases ho : t.orders with _ | ⟨top, orest⟩
    · have hred : directionalShift t (best :: brest) now nh = ⟨t, 0, 0, nh⟩ := by
        simp only [directionalShift, ho]
      rw [hred]
      exact hInv
    · simp only [directionalShift, ho]
      rw [← ho]
      by_cases hdown : best.price ≤ top.price
          ∨ depthAbove (best :: brest) top.price < VALUE_THRESHOLD
      · rw [if_pos hdown]
        have hc1 : OrdersInv ((cancelTopOrders t
            (min (max 1 (countAtOrAbove t.orders best.price)) t.orders.length)
            true now).1).orders :=
          OrdersInv_sublist hInv (cancelTopOrders_sublist t _ now true)
        split
        · show OrdersInv ((openBottomOrders _ _ (best :: brest) nh).1).orders
          exact openBottomOrders_inv _ _ (best :: brest) nh hc1 hbids
        · exact hc1
      · rw [if_neg hdown]
        by_cases hup : top.price + 1 < best.price
        · rw [if_pos hup]
          by_cases hv : 0 < validMoves (best :: brest) top.price
              (min (best.price - top.price) t.orders.length)
          · rw [if_pos hv]
            have hc1 : OrdersInv ((cancelBottomOrders t
                (validMoves (best :: brest) top.price
                  (min (best.price - top.price) t.orders.length)) true now).1).orders :=
              OrdersInv_sublist hInv (cancelBottomOrders_sublist t _ now true)
            split
            · show OrdersInv ((placeTop _ _ nh).1).orders
              exact placeTop_inv _ _ nh hc1
            · exact hc1
          · rw [if_neg hv]
            exact hInv
        · rw [if_neg hup]
          exact hInv

theorem rebalanceBody_inv (t : TrackedMarket) (bids : List MarketBid) (now nh : ℕ)
    (hInv : OrdersInv t.orders) (hbids : ∀ b ∈ bids, b.price < 1000) :
    OrdersInv ((rebalanceBody t bids now nh).market).orders := by
  have htc : OrdersInv ((if 5 < t.orders.length
      then cancelBottomOrders t (t.orders.length - 5) true now else (t, 0)).1).orders := by
    split
    · exact OrdersInv_sublist hInv (cancelBottomOrders_sublist t (t.orders.length - 5) now true)
    · exact hInv
  simp only [rebalanceBody]
  generalize hg : (if 5 < t.orders.length
      then cancelBottomOrders t (t.orders.length - 5) true now else (t, 0)) = tc
  rw [hg] at htc
  split
  · exact htc
  · generalize hg2 : (if tc.1.orders.length < 5
        then openBottomOrders tc.1 (5 - tc.1.orders.length) bids nh
        else (tc.1, 0, nh)) = tp
    have htp : OrdersInv tp.1.orders := by
      rw [← hg2]
      split
      · exact openBottomOrders_inv tc.1 _ bids nh htc hbids
      · exact htc
    split
    · exact htp
    · show OrdersInv ((directionalShift tp.1 bids now tp.2.2).market).orders
      exact directionalShift_inv tp.1 bids now tp.2.2 htp hbids

theorem checkAndRebalance_inv (t : TrackedMarket) (bids : List MarketBid) (now nh : ℕ)
    (hInv : OrdersInv t.orders) (hbids : ∀ b ∈ bids, b.price < 1000) :
    OrdersInv ((checkAndRebalance t bids now nh).market).orders := by
  simp only [checkAndRebalance]
  split
  · split
    · exact rebalanceBody_inv _ bids now nh hInv hbids
    · split
      · exact hInv
      · show OrdersInv ((cancelBottomOrders t t.orders.length true now).1).orders
        exact OrdersInv_sublist hInv (cancelBottomOrders_sublist t t.orders.length now true)
  · exact rebalanceBody_inv t bids now nh hInv hbids

theorem pairwise_of_sorted_nodup {l : List TrackedOrder}
    (hs : List.Sorted ordDesc l) (hN : (l.map TrackedOrder.price).Nodup) :
    l.Pairwise priceDesc := by
  have h2 : l.Pairwise (fun a b => a.price ≠ b.price) := List.pairwise_map.mp hN
  refine (List.Pairwise.and hs h2).imp ?_
  intro a b hab
  exact lt_of_le_of_ne hab.1 (Ne.symm hab.2)

theorem sortOrdersDesc_inv {l : List TrackedOrder}
    (hN : ((sortOrdersDesc l).map TrackedOrder.price).Nodup)
    (hrange : ∀ o ∈ l, 0 < o.price ∧ o.price < 1000) :
    OrdersInv (sortOrdersDesc l) := by
  have hs : List.Sorted ordDesc (sortOrdersDesc l) := List.sorted_insertionSort _ _
  refine ⟨pairwise_of_sorted_nodup hs hN, ?_⟩
  intro o ho
  exact hrange o ((List.perm_insertionSort ordDesc l).mem_iff.mp ho)

theorem syncMarket_inv (t : TrackedMarket) (api : List ApiOrder)
    (hprev : ∀ o ∈ t.orders, 0 < o.price ∧ o.price < 1000)
    (hder : ∀ a ∈ ordersForMarket api t.id, 0 < derivePrice a ∧ derivePrice a < 1000)
    (hN : (((syncMarket t api).orders).map TrackedOrder.price).Nodup) :
    OrdersInv (syncMarket t api).orders := by
  have hrange : ∀ o ∈ (t.orders ++ newTrackedOrders t (ordersForMarket api t.id)).filter
      (fun o => (((ordersForMarket api t.id)).map ApiOrder.hash).contains o.orderHash),
      0 < o.price ∧ o.price < 1000 := by
    intro o ho
    have hmem := List.mem_of_mem_filter ho
    rcases List.mem_append.mp hmem with h | h
    · exact hprev o h
    · unfold newTrackedOrders at h
      rcases List.mem_map.mp h with ⟨a, ha, rfl⟩
      exact hder a (List.mem_of_mem_filter ha)
  exact sortOrdersDesc_inv hN hrange

theorem prices_nodup_of_pairwise {l : List TrackedOrder} (h : l.Pairwise priceDesc) :
    (l.map TrackedOrder.price).Nodup :=
  List.pairwise_map.mpr (h.imp (fun hab => ne_of_gt hab))

theorem reopenFilled_inv (t : TrackedMarket) (closed : List String)
    (reopenOk : String → Bool) (hashFor : String → String)
    (hInv : OrdersInv t.orders) :
    OrdersInv (reopenFilled t closed reopenOk hashFor).orders := by
  have hNl : (t.orders.map TrackedOrder.price).Nodup := prices_nodup_of_pairwise hInv.1
  simp only [reopenFilled]
  split
  · exact hInv
  · show OrdersInv (sortOrdersDesc (t.orders.filter (fun o => !(closed.contains o.orderHash))
      ++ (t.orders.filter (fun o => closed.contains o.orderHash && reopenOk o.orderHash)).map
        (fun o => { price := o.price, orderHash := hashFor o.orderHash : TrackedOrder })))
    have hmapadds : ((t.orders.filter
        (fun o => closed.contains o.orderHash && reopenOk o.orderHash)).map
          (fun o => { price := o.price, orderHash := hashFor o.orderHash : TrackedOrder })).map
            TrackedOrder.price
        = (t.orders.filter
            (fun o => closed.contains o.orderHash && reopenOk o.orderHash)).map
              TrackedOrder.price := by
      rw [List.map_map]
      rfl
    have hNka : ((t.orders.filter (fun o => !(closed.contains o.orderHash))
        ++ (t.orders.filter (fun o => closed.contains o.orderHash && reopenOk o.orderHash)).map
          (fun o => { price := o.price, orderHash := hashFor o.orderHash : TrackedOrder })).map
            TrackedOrder.price).Nodup := by
      rw [List.map_append, hmapadds, List.nodup_append]
      refine ⟨List.Nodup.sublist (List.Sublist.map _ (List.filter_sublist _)) hNl,
        List.Nodup.sublist (List.Sublist.map _ (List.filter_sublist _)) hNl, ?_⟩
      intro p hp1 hp2
      rcases List.mem_map.mp hp1 with ⟨x, hx, rfl⟩
      rcases List.mem_map.mp hp2 with ⟨y, hy, hxy⟩
      have hxl := List.mem_of_mem_filter hx
      have hyl := List.mem_of_mem_filter hy
      have hxeq : y = x := List.inj_on_of_nodup_map hNl hyl hxl hxy
      have hx2 := List.of_mem_filter hx
      have hy2 := List.of_mem_filter hy
      rw [hxeq] at hy2
      simp only [Bool.and_eq_true] at hy2
      rw [hy2.1] at hx2
      cases hx2
    have hrange : ∀ o ∈ t.orders.filter (fun o => !(closed.contains o.orderHash))
        ++ (t.orders.filter (fun o => closed.contains o.orderHash && reopenOk o.orderHash)).map
          (fun o => { price := o.price, orderHash := hashFor o.orderHash : TrackedOrder }),
        0 < o.price ∧ o.price < 1000 := by
      intro o ho
      rcases List.mem_append.mp ho with h | h
      · exact hInv.2 o (List.mem_of_mem_filter h)
      · rcases List.mem_map.mp h with ⟨a, ha, rfl⟩
        exact hInv.2 a (List.mem_of_mem_filter ha)
    have hNs : ((sortOrdersDesc (t.orders.filter (fun o => !(closed.contains o.orderHash))
        ++ (t.orders.filter (fun o => closed.contains o.orderHash && reopenOk o.orderHash)).map
          (fun o => { price := o.price, orderHash := hashFor o.orderHash : TrackedOrder }))).map
            TrackedOrder.price).Nodup := by
      refine (List.Perm.nodup_iff ?_).mpr hNka
      exact List.Perm.map _ (List.perm_insertionSort ordDesc _)
    exact sortOrdersDesc_inv hNs hrange

theorem targetPrices_form (bids : List MarketBid) (k p : ℕ)
    (hf : findStart bids = some (k, p)) :
    targetPrices bids =
      (List.range (min (min 5 (6 - k)) (p - 1))).map (fun i => p - 1 - i) := by
  simp only [targetPrices, hf]
  rw [takeWhile_lt_range]

theorem targetPrices_inv (bids : List MarketBid) (hbids : ∀ b ∈ bids, b.price < 1000) :
    (targetPrices bids).Pairwise (fun a b => b < a)
    ∧ ∀ q ∈ targetPrices bids, 0 < q ∧ q < 1000 := by
  rcases hf : findStart bids with _ | kp
  · simp only [targetPrices, hf]
    exact ⟨List.Pairwise.nil, fun q hq => absurd hq (List.not_mem_nil q)⟩
  · rw [targetPrices_form bids kp.1 kp.2 (by rw [hf])]
    have hp1000 := findStart_price_lt bids kp.1 kp.2 (by rw [hf]) hbids
    constructor
    · rw [List.pairwise_map]
      refine List.Pairwise.imp_of_mem ?_
        (List.pairwise_lt_range (min (min 5 (6 - kp.1)) (kp.2 - 1)))
      intro a b ha hb hab
      have hbm := List.mem_range.mp hb
      show kp.2 - 1 - b < kp.2 - 1 - a
      omega
    · intro q hq
      rcases List.mem_map.mp hq with ⟨i, hi, rfl⟩
      have him := List.mem_range.mp hi
      constructor
      · omega
      · omega

/-- C9: the ladder invariant - prices strictly decreasing, hence no price
level twice, and every price strictly between 0 and 1 - is preserved by
every rebalance pass whenever every book price is below 1, is preserved
unconditionally by reopening filled orders, and is established by the
initial placement targets whenever every book price is below 1; after
reconciliation it holds only under extra well-formedness of the gateway
data: previously tracked prices in range, derived prices of the listed
orders in range, and no duplicate price in the reconciled list. -/
theorem orders_invariant :
    (∀ (t : TrackedMarket) (bids : List MarketBid) (now nh : ℕ),
      OrdersInv t.orders → (∀ b ∈ bids, b.price < 1000) →
      OrdersInv ((checkAndRebalance t bids now nh).market).orders)
    ∧ (∀ (t : TrackedMarket) (closed : List String) (reopenOk : String → Bool)
        (hashFor : String → String),
        OrdersInv t.orders →
        OrdersInv (reopenFilled t closed reopenOk hashFor).orders)
    ∧ (∀ (t : TrackedMarket) (api : List ApiOrder),
        (∀ o ∈ t.orders, 0 < o.price ∧ o.price < 1000) →
        (∀ a ∈ ordersForMarket api t.id, 0 < derivePrice a ∧ derivePrice a < 1000) →
        (((syncMarket t api).orders).map TrackedOrder.price).Nodup →
        OrdersInv (syncMarket t api).orders)
    ∧ (∀ bids : List MarketBid, (∀ b ∈ bids, b.price < 1000) →
        (targetPrices bids).Pairwise (fun a b => b < a)
        ∧ ∀ q ∈ targetPrices bids, 0 < q ∧ q < 1000) :=
  ⟨checkAndRebalance_inv, reopenFilled_inv, syncMarket_inv, targetPrices_inv⟩

/-- Witness for the invariant claim on concrete data: a rebalance pass, a
reopen pass, a reconciliation against a matching listing, and the initial
targets of the book bids6. -/
theorem orders_invariant_witness :
    OrdersInv ((checkAndRebalance ex620 bids619 0 0).market).orders
    ∧ OrdersInv (reopenFilled ex21 ["a"] (fun _ => true) (fun _ => "c")).orders
    ∧ OrdersInv (syncMarket ex21 (apiOf ex21)).orders
    ∧ (targetPrices bids6).Pairwise (fun a b => b < a)
    ∧ (0 < 698 ∧ 698 < 1000) :=
  ⟨orders_invariant.1 ex620 bids619 0 0 (by decide) (by decide),
   orders_invariant.2.1 ex21 ["a"] (fun _ => true) (fun _ => "c") (by decide),
   orders_invariant.2.2.1 ex21 (apiOf ex21) (by decide) (by decide) (by decide),
   (orders_invariant.2.2.2 bids6 (by decide)).1,
   (orders_invariant.2.2.2 bids6 (by decide)).2 698 (by decide)⟩

/-- Counterexample to the unconditional reconciliation part: the sync block
trusts the gateway data, and a listed order with zero maker and taker
amounts is tracked at the derived price 0, violating the strict positivity
of the invariant. -/
theorem orders_invariant_cex :
    (syncMarket exEmpty badApi).orders = [⟨0, "x"⟩]
    ∧ ¬ OrdersInv (syncMarket exEmpty badApi).orders :=
  ⟨rfl, by decide⟩

end Predictfun









